import Mathlib

/-!
# crypto-random-cli: the randomness-and-selection module (`src/random.js`)

A shallow embedding of `randomInt`, `randomFloat`, `shuffleArray` and
`pickWinners`, with the platform's `crypto` module made explicit:

* the operating system's entropy is a finite tape of bytes, consumed from the
  front by `crypto.randomBytes`; a tape that runs dry is the platform's
  "entropy unavailable" failure;
* `crypto.randomInt`, which newer runtimes provide and older ones lack, is a
  parameter of the embedding (`Crypto.randomInt`).

Every function returns its outcome together with the tape that is left, so
that "drew nothing" and "drew exactly these bytes" can be stated.

Three further views of the same code serve the claims that need them: the
shuffle with the turns of its loop recorded (`shuffleArrayTurns`), the shuffle
and the selection on arrays passed by reference (`shuffleArrayAt`,
`pickWinnersAt`), and the command line of `src/index.js` (`main`), whose
runtime services are the parameter `Sys`.
-/

namespace CryptoRandom

/-! ## Platform model -/

/-- A byte of a Node `Buffer`. -/
abbrev Byte := Fin 256

/-- The bytes the secure source will still hand out, in order. -/
abbrev Entropy := List Byte

/-- What a call can throw. `invalidArgument` carries the message of the
`Error` objects that `random.js` itself constructs; the other two are
failures of the platform. -/
inductive Err where
  | invalidArgument (message : String)
  | entropyUnavailable
  | platform
  deriving DecidableEq, Repr

/-- Result of a call: a returned value or a thrown error. -/
inductive Outcome (α : Type) where
  | ok (value : α)
  | error (e : Err)
  deriving DecidableEq, Repr

/-- The runtime's `crypto` module as far as `random.js` looks at it.
`randomInt` is `none` on a runtime without `crypto.randomInt`; otherwise it is
that primitive at `min = 0`: asked for `max`, it either throws (`none`) or
returns an integer of `[0, max)`, and it may consume entropy. -/
structure Crypto where
  randomInt : Option ((max : Nat) → Entropy → Option (Fin max) × Entropy)

/-- A runtime without `crypto.randomInt` ("older Node"). -/
def legacyCrypto : Crypto := ⟨none⟩

/-- The call `crypto.randomBytes(size)`: the next `size` bytes of the tape. -/
def randomBytes (size : Nat) (s : Entropy) : Outcome (List Byte) × Entropy :=
  if size ≤ s.length then (.ok (s.take size), s.drop size)
  else (.error .entropyUnavailable, s)

/-- The call `buf.readUIntBE(offset, byteLength)`: big-endian unsigned integer. -/
def readUIntBE (buf : List Byte) (offset byteLength : Nat) : Nat :=
  ((buf.drop offset).take byteLength).foldl (fun acc b => acc * 256 + b.val) 0

/-- The call `buf.readUInt32BE(offset)`. -/
def readUInt32BE (buf : List Byte) (offset : Nat) : Nat :=
  readUIntBE buf offset 4

/-! ## JavaScript arguments -/

/-- A JavaScript value passed where a number is expected. `integer z` is a
number whose value is the integer `z`; `nonInteger` is anything for which
`Number.isInteger` is false (a fractional number, `NaN`, an infinity, or a
value that is not a number). -/
inductive JsValue where
  | integer (z : Int)
  | nonInteger
  deriving DecidableEq, Repr

/-- The test `Number.isInteger(v)`. -/
def JsValue.isInteger : JsValue → Bool
  | .integer _ => true
  | .nonInteger => false

/-- Numeric value of an argument that passed `Number.isInteger`. -/
def JsValue.toInt : JsValue → Int
  | .integer z => z
  | .nonInteger => 0

/-- A JavaScript value passed where an array is expected. -/
inductive JsArray (α : Type) where
  | array (elems : List α)
  | nonArray
  deriving DecidableEq, Repr

/-! ## `random.js` -/

/-- The constant `maxUint32` of `randomInt`. -/
def maxUint32 : Nat := 0xffffffff

/-- The constant `limit` of `randomInt`:
`maxUint32 - (maxUint32 % maxExclusive)`. -/
def limit (maxExclusive : Nat) : Nat :=
  maxUint32 - (maxUint32 % maxExclusive)

/-- The `while (true)` loop of `randomInt`: draw 4 bytes, read them as a
big-endian `u32`, return `u32 % maxExclusive` if `u32 < limit`, else redraw.
The pattern `b0 :: b1 :: b2 :: b3 :: rest` is `crypto.randomBytes(4)`
succeeding (see `rejectionLoop_eq`). -/
def rejectionLoop (maxExclusive lim : Nat) : Entropy → Outcome Nat × Entropy
  | b0 :: b1 :: b2 :: b3 :: rest =>
    let u32 := readUInt32BE [b0, b1, b2, b3] 0
    if u32 < lim then (.ok (u32 % maxExclusive), rest)
    else rejectionLoop maxExclusive lim rest
  | s => (.error .entropyUnavailable, s)

/-- The function `randomInt(maxExclusive)`. -/
def randomInt (crypto : Crypto) (maxExclusive : JsValue) (s : Entropy) :
    Outcome Nat × Entropy :=
  if !maxExclusive.isInteger || decide (maxExclusive.toInt ≤ 0) then
    (.error (.invalidArgument "maxExclusive must be a positive integer"), s)
  else
    match crypto.randomInt with
    | some native =>
      match native maxExclusive.toInt.toNat s with
      | (some v, s') => (.ok v.val, s')
      | (none, s') => (.error .platform, s')
    | none =>
      rejectionLoop maxExclusive.toInt.toNat (limit maxExclusive.toInt.toNat) s

/-- The function `randomFloat()`: 6 bytes read as a big-endian unsigned
integer, divided by `2^48`. The quotient of an integer below `2^48` by `2^48`
is exact in double precision, so the result is the rational number itself. -/
def randomFloat (s : Entropy) : Outcome ℚ × Entropy :=
  match randomBytes 6 s with
  | (.ok buf, s') =>
    let int := readUIntBE buf 0 6
    let max : ℚ := 2 ^ 48
    (.ok ((int : ℚ) / max), s')
  | (.error e, s') => (.error e, s')

/-- The destructuring assignment `[a[i], a[j]] = [a[j], a[i]]` for
`i` and `j` inside the array; outside it (never reached from `shuffleArray`)
the list is left alone. -/
def swap {α : Type} (a : List α) (i j : Nat) : List α :=
  match a[i]?, a[j]? with
  | some x, some y => (a.set i y).set j x
  | _, _ => a

/-- The `for` loop of `shuffleArray`, entered with loop variable `i`. -/
def shuffleLoop {α : Type} (crypto : Crypto) :
    Nat → List α → Entropy → Outcome (List α) × Entropy
  | 0, a, s => (.ok a, s)
  | i + 1, a, s =>
    match randomInt crypto (.integer ((i + 1 : Nat) + 1)) s with
    | (.ok j, s') => shuffleLoop crypto i (swap a (i + 1) j) s'
    | (.error e, s') => (.error e, s')

/-- The function `shuffleArray(arr)`. -/
def shuffleArray {α : Type} (crypto : Crypto) (arr : List α) (s : Entropy) :
    Outcome (List α) × Entropy :=
  let a := arr
  shuffleLoop crypto (a.length - 1) a s

/-- The function `pickWinners(arr, count)`. -/
def pickWinners {α : Type} (crypto : Crypto) (arr : JsArray α) (count : JsValue)
    (s : Entropy) : Outcome (List α) × Entropy :=
  match arr with
  | .nonArray => (.error (.invalidArgument "arr must be an array"), s)
  | .array xs =>
    if !count.isInteger || decide (count.toInt ≤ 0) then
      (.error (.invalidArgument "count must be a positive integer"), s)
    else if count.toInt > xs.length then
      (.error (.invalidArgument "count cannot be greater than array length"), s)
    else
      match shuffleArray crypto xs s with
      | (.ok shuffled, s') => (.ok (shuffled.take count.toInt.toNat), s')
      | (.error e, s') => (.error e, s')

/-! ## Draw sequences

The claims about the shuffle speak of the draws `j_i` that `randomInt(i + 1)`
returns. On the rejection-sampling path a draw `j ≤ i` is returned when the
secure source supplies the 32-bit word `j` itself; the definitions below
write such a scripted source and the swaps a draw sequence stands for. -/

/-- The four bytes that `readUInt32BE` reads as the word `u` (`u < 2^32`). -/
def encodeU32 (u : Nat) : List Byte :=
  [Fin.ofNat (u / 2 ^ 24), Fin.ofNat (u / 2 ^ 16), Fin.ofNat (u / 2 ^ 8), Fin.ofNat u]

/-- A secure source that supplies the 32-bit words `js`, in order, and then
runs dry. -/
def encodeDraws : List Nat → Entropy
  | [] => []
  | j :: js => encodeU32 j ++ encodeDraws js

/-- Validity of a draw sequence `(j_i, ..., j_1)` for the loop entered at `i`:
exactly one draw per index `k = i, ..., 1`, with `0 ≤ j_k ≤ k`. -/
def validDraws : Nat → List Nat → Bool
  | 0, js => js.isEmpty
  | i + 1, j :: js => decide (j ≤ i + 1) && validDraws i js
  | _ + 1, [] => false

/-- The swaps of positions `(k, j_k)` for `k = i` down to `1`, applied in this
order to `a`. -/
def applyDraws {α : Type} : Nat → List α → List Nat → List α
  | i + 1, a, j :: js => applyDraws i (swap a (i + 1) j) js
  | _, a, _ => a

/-! ## The shuffle with its calls recorded -/

/-- One turn of the loop of `shuffleArray`: the loop variable `i`, the argument
passed to `randomInt`, and what the call gave back. -/
structure Turn where
  i : Nat
  bound : JsValue
  result : Outcome Nat
  deriving DecidableEq, Repr

/-- The `for` loop of `shuffleArray` as in `shuffleLoop`, returning in addition
the turns it made, in order. -/
def shuffleLoopTurns {α : Type} (crypto : Crypto) :
    Nat → List α → Entropy → Outcome (List α) × List Turn × Entropy
  | 0, a, s => (.ok a, [], s)
  | i + 1, a, s =>
    match randomInt crypto (.integer ((i + 1 : Nat) + 1)) s with
    | (.ok j, s') =>
      match shuffleLoopTurns crypto i (swap a (i + 1) j) s' with
      | (r, turns, s'') => (r, ⟨i + 1, .integer ((i + 1 : Nat) + 1), .ok j⟩ :: turns, s'')
    | (.error e, s') => (.error e, [⟨i + 1, .integer ((i + 1 : Nat) + 1), .error e⟩], s')

/-- The function `shuffleArray(arr)` as in `shuffleArray`, returning in
addition the turns of its loop. -/
def shuffleArrayTurns {α : Type} (crypto : Crypto) (arr : List α) (s : Entropy) :
    Outcome (List α) × List Turn × Entropy :=
  let a := arr
  shuffleLoopTurns crypto (a.length - 1) a s

/-! ## Arrays as objects in memory

For the claims about the caller's list the arrays are objects in a heap,
passed by reference, and the functions of `random.js` write through the
references they hold. -/

/-- The arrays that exist; a reference is an index into this list. -/
abbrev Heap (α : Type) := List (List α)

/-- The elements of the array that `ref` refers to. -/
def Heap.read {α : Type} (h : Heap α) (ref : Nat) : List α :=
  h.getD ref []

/-- A new array object holding `elems` (what `slice` returns): the heap with
the object added, and the reference to it. -/
def Heap.alloc {α : Type} (h : Heap α) (elems : List α) : Heap α × Nat :=
  (h ++ [elems], h.length)

/-- A JavaScript value passed where an array is expected, by reference. -/
inductive JsRef where
  | array (ref : Nat)
  | nonArray
  deriving DecidableEq, Repr

/-- The `for` loop of `shuffleArray`, writing through the reference `a`. -/
def shuffleLoopAt {α : Type} (crypto : Crypto) :
    Nat → Heap α → Nat → Entropy → Outcome Unit × Heap α × Entropy
  | 0, h, _, s => (.ok (), h, s)
  | i + 1, h, a, s =>
    match randomInt crypto (.integer ((i + 1 : Nat) + 1)) s with
    | (.ok j, s') => shuffleLoopAt crypto i (h.set a (swap (h.read a) (i + 1) j)) a s'
    | (.error e, s') => (.error e, h, s')

/-- The function `shuffleArray(arr)` on references: `a = arr.slice()` is a new
object, the loop writes through `a`, and `a` is returned. -/
def shuffleArrayAt {α : Type} (crypto : Crypto) (h : Heap α) (arr : Nat) (s : Entropy) :
    Outcome Nat × Heap α × Entropy :=
  match h.alloc (h.read arr) with
  | (h1, a) =>
    match shuffleLoopAt crypto ((h1.read a).length - 1) h1 a s with
    | (.ok _, h2, s') => (.ok a, h2, s')
    | (.error e, h2, s') => (.error e, h2, s')

/-- The function `pickWinners(arr, count)` on references. -/
def pickWinnersAt {α : Type} (crypto : Crypto) (h : Heap α) (arr : JsRef) (count : JsValue)
    (s : Entropy) : Outcome Nat × Heap α × Entropy :=
  match arr with
  | .nonArray => (.error (.invalidArgument "arr must be an array"), h, s)
  | .array ref =>
    if !count.isInteger || decide (count.toInt ≤ 0) then
      (.error (.invalidArgument "count must be a positive integer"), h, s)
    else if count.toInt > (h.read ref).length then
      (.error (.invalidArgument "count cannot be greater than array length"), h, s)
    else
      match shuffleArrayAt crypto h ref s with
      | (.ok shuffled, h1, s') =>
        match h1.alloc ((h1.read shuffled).take count.toInt.toNat) with
        | (h2, winners) => (.ok winners, h2, s')
      | (.error e, h1, s') => (.error e, h1, s')

/-! ## `index.js`, the command line -/

/-- The code points that `String.prototype.trim` strips: ECMAScript
WhiteSpace and LineTerminator. -/
def isJsWhiteSpace (c : Char) : Bool :=
  c.toNat ∈ [0x09, 0x0A, 0x0B, 0x0C, 0x0D, 0x20, 0xA0, 0x1680, 0x2028, 0x2029, 0x202F,
    0x205F, 0x3000, 0xFEFF] || (0x2000 ≤ c.toNat && c.toNat ≤ 0x200A)

/-- The call `l.trim()` on the characters of a string. -/
def trimChars (l : List Char) : List Char :=
  ((l.dropWhile isJsWhiteSpace).reverse.dropWhile isJsWhiteSpace).reverse

/-- The call `l.trim()`. -/
def jsTrim (l : String) : String :=
  String.mk (trimChars l.data)

/-- The call `contents.split(/\r?\n/)` on characters, with `cur` the reversed
characters read since the last separator. A separator is a line feed together
with a carriage return right before it, if there is one. -/
def splitLinesAux : List Char → List Char → List (List Char)
  | [], cur => [cur.reverse]
  | c :: rest, cur =>
    if c = '\n' then
      (match cur with
        | '\r' :: cur' => cur'.reverse
        | _ => cur.reverse) :: splitLinesAux rest []
    else splitLinesAux rest (c :: cur)

/-- The call `contents.split(/\r?\n/)`. -/
def splitLines (contents : String) : List String :=
  (splitLinesAux contents.data []).map String.mk

/-- The expression
`contents.split(/\r?\n/).filter((l) => l.trim().length > 0)` by which both
the `shuffle` and the `winners` command build their list of lines. -/
def readLines (contents : String) : List String :=
  (splitLines contents).filter (fun l => decide ((jsTrim l).length > 0))

/-- An entry of the file system: a file that can be read, or something that
exists and cannot (reading it throws). -/
inductive FileEntry where
  | file (contents : String)
  | unreadable
  deriving DecidableEq, Repr

/-- What `index.js` uses of the runtime besides `crypto`: `parseInt(x, 10)`
for an argument that may be missing, `path.resolve(process.cwd(), file)`, the
file system by resolved path, and the decimal text of a number. -/
structure Sys where
  parseInt : Option String → JsValue
  resolve : String → String
  files : String → Option FileEntry
  numberToString : ℚ → String

/-- How the process ends: `process.exit(code)`, or an exception nobody caught. -/
inductive Exit where
  | code (n : Nat)
  | uncaught (e : Err)
  deriving DecidableEq, Repr

/-- What a run of the command line shows: one entry per `console.log` call,
one per `console.error` call, and how the process ended. -/
structure Run where
  stdout : List String
  stderr : List String
  exit : Exit
  deriving DecidableEq, Repr

/-- The text that `printHelp` logs. -/
def helpText : String :=
  "\ncrypto-random-cli\n\nUsage:\n  crypto-random int <maxExclusive>\n  crypto-random float\n  crypto-random shuffle <file>\n  crypto-random winners <file> <count>\n\nCommands:\n  int <maxExclusive>     Print a random integer in [0, maxExclusive)\n  float                  Print a random float in [0, 1)\n  shuffle <file>         Shuffle lines from a file and print them\n  winners <file> <count> Pick <count> random unique lines from file\n\nExamples:\n  crypto-random int 100\n  crypto-random float\n  crypto-random shuffle addresses.txt\n  crypto-random winners addresses.txt 10\n"

/-- The test `!file` for an argument that may be missing. -/
def isFalsy (file : Option String) : Bool :=
  match file with
  | none => true
  | some f => f == ""

/-- The function `main()` of `index.js`, on the arguments after the script name. -/
def main (sys : Sys) (crypto : Crypto) (args : List String) (s : Entropy) : Run × Entropy :=
  if args.length == 0 || args[0]? == some "help" || args[0]? == some "--help" then
    (⟨[helpText], [], .code 0⟩, s)
  else
    let cmd := args[0]?.getD ""
    if cmd == "int" then
      let maxExclusive := sys.parseInt args[1]?
      if !maxExclusive.isInteger || decide (maxExclusive.toInt ≤ 0) then
        (⟨[], ["maxExclusive must be a positive integer"], .code 1⟩, s)
      else
        match randomInt crypto maxExclusive s with
        | (.ok v, s') => (⟨[toString v], [], .code 0⟩, s')
        | (.error e, s') => (⟨[], [], .uncaught e⟩, s')
    else if cmd == "float" then
      match randomFloat s with
      | (.ok f, s') => (⟨[sys.numberToString f], [], .code 0⟩, s')
      | (.error e, s') => (⟨[], [], .uncaught e⟩, s')
    else if cmd == "shuffle" then
      let file := args[1]?
      if isFalsy file then
        (⟨[], ["Missing <file> argument"], .code 1⟩, s)
      else
        let fullPath := sys.resolve (file.getD "")
        match sys.files fullPath with
        | none => (⟨[], ["File not found: " ++ fullPath], .code 1⟩, s)
        | some .unreadable => (⟨[], [], .uncaught .platform⟩, s)
        | some (.file contents) =>
          let lines := readLines contents
          match shuffleArray crypto lines s with
          | (.ok shuffled, s') => (⟨["\n".intercalate shuffled], [], .code 0⟩, s')
          | (.error e, s') => (⟨[], [], .uncaught e⟩, s')
    else if cmd == "winners" then
      let file := args[1]?
      let count := sys.parseInt args[2]?
      if isFalsy file || !count.isInteger || decide (count.toInt ≤ 0) then
        (⟨[], ["Usage: crypto-random winners <file> <count>"], .code 1⟩, s)
      else
        let fullPath := sys.resolve (file.getD "")
        match sys.files fullPath with
        | none => (⟨[], ["File not found: " ++ fullPath], .code 1⟩, s)
        | some .unreadable => (⟨[], [], .uncaught .platform⟩, s)
        | some (.file contents) =>
          let lines := readLines contents
          if lines.length == 0 then
            (⟨[], ["File has no non-empty lines"], .code 1⟩, s)
          else if count.toInt > lines.length then
            (⟨[], ["count cannot be greater than number of lines"], .code 1⟩, s)
          else
            match pickWinners crypto (.array lines) count s with
            | (.ok winners, s') => (⟨["\n".intercalate winners], [], .code 0⟩, s')
            | (.error e, s') => (⟨[], [], .uncaught e⟩, s')
    else
      (⟨[helpText], ["Unknown command: " ++ cmd], .code 1⟩, s)

/-- Unsigned decimal numerals, for the sample runtime below. -/
def parseDigits : List Char → Option Nat
  | [] => none
  | cs => cs.foldl (fun acc c =>
      match acc with
      | some n => if c.isDigit then some (n * 10 + (c.toNat - '0'.toNat)) else none
      | none => none) (some 0)

/-- A sample runtime: `parseInt` reads unsigned decimal numerals (anything
else is NaN here), paths resolve to themselves, and the only file is
`list.txt` with the five lines `a` to `e`. -/
def sampleSys : Sys where
  parseInt := fun x =>
    match x with
    | none => .nonInteger
    | some str =>
      match parseDigits str.data with
      | some n => .integer n
      | none => .nonInteger
  resolve := fun p => p
  files := fun p => if p == "list.txt" then some (.file "a\nb\nc\nd\ne\n") else none
  numberToString := fun _ => ""

/-! ## Sample runtimes for scripted draws -/

/-- A sample runtime that has `crypto.randomInt` ("newer Node"): asked for
`max`, the primitive reads the next 32-bit word `u` of the tape and returns
`u % max`; it throws for `max = 0` and when the tape has run dry. -/
def modernCrypto : Crypto :=
  ⟨some (fun max s =>
    match s with
    | b0 :: b1 :: b2 :: b3 :: rest =>
      if h : 0 < max then
        (some ⟨readUInt32BE [b0, b1, b2, b3] 0 % max, Nat.mod_lt _ h⟩, rest)
      else (none, s)
    | _ => (none, s))⟩

/-- A runtime on which a scripted word `j` below the bound is the draw that
`randomInt` returns, with exactly that word consumed. -/
def Scripted (crypto : Crypto) : Prop :=
  ∀ (n j : Nat) (rest : Entropy), j < n → n ≤ 2 ^ 32 - 1 →
    randomInt crypto (.integer n) (encodeU32 j ++ rest) = (.ok j, rest)

/-! ## Basic facts about the platform model and the sampling loop -/

theorem rejectionLoop_eq (maxExclusive lim : Nat) (s : Entropy) :
    rejectionLoop maxExclusive lim s =
      match randomBytes 4 s with
      | (.ok buf, s') =>
        if readUInt32BE buf 0 < lim then (.ok (readUInt32BE buf 0 % maxExclusive), s')
        else rejectionLoop maxExclusive lim s'
      | (.error e, s') => (.error e, s') := by
  match s with
  | [] => simp [rejectionLoop, randomBytes]
  | [_] => simp [rejectionLoop, randomBytes]
  | [_, _] => simp [rejectionLoop, randomBytes]
  | [_, _, _] => simp [rejectionLoop, randomBytes]
  | b0 :: b1 :: b2 :: b3 :: rest => simp [rejectionLoop, randomBytes]

theorem rejectionLoop_ok_lt (maxExclusive lim : Nat) (hpos : 0 < maxExclusive) :
    ∀ (s : Entropy) (v : Nat) (s' : Entropy),
      rejectionLoop maxExclusive lim s = (.ok v, s') → v < maxExclusive
  | b0 :: b1 :: b2 :: b3 :: rest, v, s', h => by
    rw [rejectionLoop] at h
    by_cases hu : readUInt32BE [b0, b1, b2, b3] 0 < lim
    · simp only [hu, if_true, Prod.mk.injEq, Outcome.ok.injEq] at h
      rw [← h.1]
      exact Nat.mod_lt _ hpos
    · simp only [hu, if_false] at h
      exact rejectionLoop_ok_lt maxExclusive lim hpos rest v s' h
  | [], v, s', h => by simp [rejectionLoop] at h
  | [_], v, s', h => by simp [rejectionLoop] at h
  | [_, _], v, s', h => by simp [rejectionLoop] at h
  | [_, _, _], v, s', h => by simp [rejectionLoop] at h

/-- Past its guard, on a runtime without `crypto.randomInt`, `randomInt` is
the rejection-sampling loop. -/
theorem randomInt_legacy (crypto : Crypto) (hc : crypto.randomInt = none) (n : Int)
    (hn : 0 < n) (s : Entropy) :
    randomInt crypto (.integer n) s = rejectionLoop n.toNat (limit n.toNat) s := by
  have : ¬ n ≤ 0 := by omega
  simp [randomInt, JsValue.isInteger, JsValue.toInt, this, hc]

/-- Past its guard, on a runtime with `crypto.randomInt`, `randomInt` is that
primitive. -/
theorem randomInt_native (crypto : Crypto)
    (native : (max : Nat) → Entropy → Option (Fin max) × Entropy)
    (hc : crypto.randomInt = some native) (n : Int) (hn : 0 < n) (s : Entropy) :
    randomInt crypto (.integer n) s =
      match native n.toNat s with
      | (some v, s') => (.ok v.val, s')
      | (none, s') => (.error .platform, s') := by
  have : ¬ n ≤ 0 := by omega
  simp only [randomInt, JsValue.isInteger, JsValue.toInt, this, hc, Bool.not_true,
    Bool.false_or, decide_False, Bool.false_eq_true, if_false]
  generalize native n.toNat s = r
  rcases r with ⟨_ | _, _⟩ <;> rfl

/-- A value returned by `randomInt` for a positive bound is below the bound. -/
theorem randomInt_ok_lt (crypto : Crypto) (n : Int) (hn : 0 < n) (s : Entropy) (v : Nat)
    (s' : Entropy) (h : randomInt crypto (.integer n) s = (.ok v, s')) : v < n.toNat := by
  cases hc : crypto.randomInt with
  | some native =>
    rw [randomInt_native crypto native hc n hn] at h
    cases hr : native n.toNat s with
    | mk r t =>
      cases r with
      | some w =>
        simp only [hr, Prod.mk.injEq, Outcome.ok.injEq] at h
        rw [← h.1]
        exact w.isLt
      | none => simp [hr] at h
  | none =>
    rw [randomInt_legacy crypto hc n hn] at h
    exact rejectionLoop_ok_lt _ _ (by omega) s v s' h

/-- Claim C1. Whenever `randomInt(maxExclusive)` returns a value `v` for a
positive integer `maxExclusive`, on either path and whatever the secure source
supplies, `v` is an integer with `0 ≤ v < maxExclusive`. -/
theorem randomInt_in_range (crypto : Crypto) (maxExclusive : Int) (hpos : 0 < maxExclusive)
    (s : Entropy) (v : Nat) (s' : Entropy)
    (h : randomInt crypto (.integer maxExclusive) s = (.ok v, s')) :
    0 ≤ (v : Int) ∧ (v : Int) < maxExclusive := by
  have hlt := randomInt_ok_lt crypto maxExclusive hpos s v s' h
  omega

theorem randomInt_in_range_witness :
    randomInt legacyCrypto (.integer 3) [255, 255, 255, 255, 0, 0, 0, 7, 9] = (.ok 1, [9]) ∧
      (0 ≤ ((1 : Nat) : Int) ∧ ((1 : Nat) : Int) < 3) :=
  ⟨by decide, randomInt_in_range legacyCrypto 3 (by decide)
    [255, 255, 255, 255, 0, 0, 0, 7, 9] 1 [9] (by decide)⟩

/-! ## The acceptance bound `limit` -/

theorem limit_eq_mul (n : Nat) : limit n = n * (maxUint32 / n) := by
  have h := Nat.div_add_mod maxUint32 n
  unfold limit
  omega

theorem limit_dvd (n : Nat) : n ∣ limit n :=
  ⟨maxUint32 / n, limit_eq_mul n⟩

theorem le_limit (n : Nat) (h1 : 1 ≤ n) (h2 : n ≤ 2 ^ 32 - 1) : n ≤ limit n := by
  rw [limit_eq_mul]
  have hq : 1 ≤ maxUint32 / n := by
    rw [Nat.one_le_div_iff (by omega)]
    simpa [maxUint32] using h2
  calc n = n * 1 := (Nat.mul_one n).symm
    _ ≤ n * (maxUint32 / n) := Nat.mul_le_mul_left n hq

/-- Claim C2. For `1 ≤ n ≤ 2^32 - 1` the bound `limit` is a positive multiple
of `n`, and every residue `r` of `[0, n)` is hit by exactly `limit / n` of the
accepted draws `0 ≤ u < limit`: the same number for every residue. -/
theorem limit_no_modulo_bias (n : Nat) (h1 : 1 ≤ n) (h2 : n ≤ 2 ^ 32 - 1) :
    0 < limit n ∧ n ∣ limit n ∧
      ∀ r, r < n →
        ((Finset.range (limit n)).filter (fun u => u % n = r)).card = limit n / n := by
  have hle := le_limit n h1 h2
  refine ⟨by omega, limit_dvd n, ?_⟩
  intro r hr
  have hcount := Nat.count_modEq_card (limit n) (show 0 < n by omega) r
  have hmod : limit n % n = 0 := Nat.mod_eq_zero_of_dvd (limit_dvd n)
  rw [hmod] at hcount
  simp only [Nat.not_lt_zero, if_false, Nat.add_zero] at hcount
  rw [← hcount, Nat.count_eq_card_filter_range]
  congr 1
  apply Finset.filter_congr
  intro u _
  simp [Nat.ModEq, Nat.mod_eq_of_lt hr]

theorem limit_no_modulo_bias_witness :
    0 < limit 3 ∧ 3 ∣ limit 3 ∧
      ∀ r, r < 3 →
        ((Finset.range (limit 3)).filter (fun u => u % 3 = r)).card = limit 3 / 3 :=
  limit_no_modulo_bias 3 (by decide) (by decide)

/-- Claim C8, as stated, fails at `n = 2^31`: there `limit = 2^31`, so
`2 * limit = 2^32` and the expected number of draws is exactly 2. -/
theorem expected_draws_lt_two_fails :
    1 ≤ 2 ^ 31 ∧ 2 ^ 31 ≤ 2 ^ 32 - 1 ∧ limit (2 ^ 31) = 2 ^ 31 ∧
      ¬ (2 * limit (2 ^ 31) > 2 ^ 32) := by
  decide

/-- Claim C8, amended. For `1 ≤ n ≤ 2^32 - 1` the expected number of draws
`2^32 / limit` is at most 2 (`2 * limit ≥ 2^32`), and it is less than 2
(`2 * limit > 2^32`) for every such `n` other than `2^31`. -/
theorem expected_draws_le_two (n : Nat) (h1 : 1 ≤ n) (h2 : n ≤ 2 ^ 32 - 1) :
    2 ^ 32 ≤ 2 * limit n ∧ (n ≠ 2 ^ 31 → 2 ^ 32 < 2 * limit n) := by
  have hle := le_limit n h1 h2
  have hmod : maxUint32 % n < n := Nat.mod_lt _ (by omega)
  have hlim : limit n + maxUint32 % n = maxUint32 := by
    have := Nat.mod_le maxUint32 n
    unfold limit
    omega
  have hM : maxUint32 = 2 ^ 32 - 1 := by decide
  refine ⟨by omega, ?_⟩
  intro hne
  by_contra hcon
  have heq : limit n = 2 ^ 31 := by omega
  rw [limit_eq_mul] at heq
  have hq1 : 1 ≤ maxUint32 / n := by
    rcases Nat.eq_zero_or_pos (maxUint32 / n) with h0 | h0
    · rw [h0] at heq; simp at heq
    · exact h0
  have hn31 : 2 ^ 31 ≤ n := by
    rw [← limit_eq_mul] at heq
    omega
  have hq : maxUint32 / n = 1 := by
    by_contra hq
    have hq2 : 2 ≤ maxUint32 / n := by omega
    have := Nat.mul_le_mul_left n hq2
    omega
  rw [hq] at heq
  omega

theorem expected_draws_le_two_witness :
    2 ^ 32 ≤ 2 * limit 6 ∧ ((6 : Nat) ≠ 2 ^ 31 → 2 ^ 32 < 2 * limit 6) :=
  expected_draws_le_two 6 (by decide) (by decide)

/-! ## The argument guard of `randomInt` -/

/-- The sampling loop can only fail because the source ran dry. -/
theorem rejectionLoop_error (maxExclusive lim : Nat) :
    ∀ (s : Entropy) (e : Err),
      (rejectionLoop maxExclusive lim s).1 = .error e → e = .entropyUnavailable
  | b0 :: b1 :: b2 :: b3 :: rest, e, h => by
    rw [rejectionLoop] at h
    by_cases hu : readUInt32BE [b0, b1, b2, b3] 0 < lim
    · simp [hu] at h
    · simp only [hu, if_false] at h
      exact rejectionLoop_error maxExclusive lim rest e h
  | [], e, h => by simpa [rejectionLoop, eq_comm] using h
  | [_], e, h => by simpa [rejectionLoop, eq_comm] using h
  | [_, _], e, h => by simpa [rejectionLoop, eq_comm] using h
  | [_, _, _], e, h => by simpa [rejectionLoop, eq_comm] using h

/-- Past its guard `randomInt` throws no error of its own: a failure is a
failure of the platform. -/
theorem randomInt_error (crypto : Crypto) (n : Int) (hn : 0 < n) (s : Entropy) (e : Err)
    (h : (randomInt crypto (.integer n) s).1 = .error e) :
    e = .entropyUnavailable ∨ e = .platform := by
  cases hc : crypto.randomInt with
  | some native =>
    rw [randomInt_native crypto native hc n hn] at h
    generalize native n.toNat s = r at h
    rcases r with ⟨_ | _, _⟩
    · right
      simpa [eq_comm] using h
    · simp at h
  | none =>
    rw [randomInt_legacy crypto hc n hn] at h
    exact Or.inl (rejectionLoop_error _ _ s e h)

/-- Claim C9. If `maxExclusive` is not a positive integer (zero, a negative
integer, or not an integer at all), `randomInt` throws its invalid-argument
error and leaves the secure source untouched; if it is a positive integer,
`randomInt` does not throw an invalid-argument error. -/
theorem randomInt_guard (crypto : Crypto) (maxExclusive : JsValue) (s : Entropy) :
    ((¬ ∃ z : Int, maxExclusive = .integer z ∧ 0 < z) →
        randomInt crypto maxExclusive s =
          (.error (.invalidArgument "maxExclusive must be a positive integer"), s)) ∧
      ((∃ z : Int, maxExclusive = .integer z ∧ 0 < z) →
        ∀ message, (randomInt crypto maxExclusive s).1 ≠ .error (.invalidArgument message)) := by
  constructor
  · intro hnot
    cases maxExclusive with
    | nonInteger => simp [randomInt, JsValue.isInteger]
    | integer z =>
      have hz : z ≤ 0 := by
        by_contra hz
        exact hnot ⟨z, rfl, by omega⟩
      simp [randomInt, JsValue.isInteger, JsValue.toInt, hz]
  · rintro ⟨z, rfl, hz⟩ message h
    rcases randomInt_error crypto z hz s _ h with h' | h' <;> cases h'

theorem randomInt_guard_witness :
    randomInt legacyCrypto (.integer 0) [0, 0, 0, 1] =
        (.error (.invalidArgument "maxExclusive must be a positive integer"), [0, 0, 0, 1]) ∧
      randomInt legacyCrypto .nonInteger [0, 0, 0, 1] =
        (.error (.invalidArgument "maxExclusive must be a positive integer"), [0, 0, 0, 1]) ∧
      ∀ message,
        (randomInt legacyCrypto (.integer 5) [0, 0, 0, 1]).1 ≠
          .error (.invalidArgument message) :=
  ⟨(randomInt_guard legacyCrypto (.integer 0) [0, 0, 0, 1]).1 (by simp),
    (randomInt_guard legacyCrypto .nonInteger [0, 0, 0, 1]).1 (by simp),
    (randomInt_guard legacyCrypto (.integer 5) [0, 0, 0, 1]).2 ⟨5, rfl, by decide⟩⟩

/-! ## `randomFloat` -/

/-- Claim C7. Given the six bytes `b0 .. b5` from the secure source,
`randomFloat` returns `v / 2^48` for the big-endian 48-bit integer
`v = b0*2^40 + b1*2^32 + b2*2^24 + b3*2^16 + b4*2^8 + b5`, consuming exactly
those six bytes, and the result lies in `[0, 1)`. -/
theorem randomFloat_value (b0 b1 b2 b3 b4 b5 : Byte) (s : Entropy) :
    randomFloat (b0 :: b1 :: b2 :: b3 :: b4 :: b5 :: s) =
        (.ok (((b0.val * 2 ^ 40 + b1.val * 2 ^ 32 + b2.val * 2 ^ 24 + b3.val * 2 ^ 16 +
          b4.val * 2 ^ 8 + b5.val : Nat) : ℚ) / 2 ^ 48), s) ∧
      (0 : ℚ) ≤ ((b0.val * 2 ^ 40 + b1.val * 2 ^ 32 + b2.val * 2 ^ 24 + b3.val * 2 ^ 16 +
          b4.val * 2 ^ 8 + b5.val : Nat) : ℚ) / 2 ^ 48 ∧
      ((b0.val * 2 ^ 40 + b1.val * 2 ^ 32 + b2.val * 2 ^ 24 + b3.val * 2 ^ 16 +
          b4.val * 2 ^ 8 + b5.val : Nat) : ℚ) / 2 ^ 48 < 1 := by
  have hv : readUIntBE [b0, b1, b2, b3, b4, b5] 0 6 =
      b0.val * 2 ^ 40 + b1.val * 2 ^ 32 + b2.val * 2 ^ 24 + b3.val * 2 ^ 16 +
        b4.val * 2 ^ 8 + b5.val := by
    simp only [readUIntBE, List.drop_zero, List.take, List.foldl]
    ring
  refine ⟨?_, ?_, ?_⟩
  · have hb : randomBytes 6 (b0 :: b1 :: b2 :: b3 :: b4 :: b5 :: s) =
        (.ok [b0, b1, b2, b3, b4, b5], s) := by
      simp [randomBytes]
    simp only [randomFloat, hb, hv]
  · exact div_nonneg (Nat.cast_nonneg _) (by norm_num)
  · rw [div_lt_one (by norm_num)]
    have h0 := b0.isLt
    have h1 := b1.isLt
    have h2 := b2.isLt
    have h3 := b3.isLt
    have h4 := b4.isLt
    have h5 := b5.isLt
    have : b0.val * 2 ^ 40 + b1.val * 2 ^ 32 + b2.val * 2 ^ 24 + b3.val * 2 ^ 16 +
        b4.val * 2 ^ 8 + b5.val < 2 ^ 48 := by omega
    exact_mod_cast this

/-! ## The swap and the shuffle loop -/

theorem cons_set_perm {α : Type} (h y : α) :
    ∀ (t : List α) (j : Nat), t[j]? = some y → (y :: t.set j h).Perm (h :: t)
  | [], j, hj => by simp at hj
  | t0 :: t, 0, hj => by
    simp only [List.getElem?_cons_zero, Option.some.injEq] at hj
    subst hj
    exact List.Perm.swap _ _ _
  | t0 :: t, j + 1, hj => by
    simp only [List.getElem?_cons_succ] at hj
    have ih := cons_set_perm h y t j hj
    simp only [List.set_cons_succ]
    calc (y :: t0 :: t.set j h).Perm (t0 :: y :: t.set j h) := List.Perm.swap _ _ _
      _ |>.Perm (t0 :: h :: t) := List.Perm.cons _ ih
      _ |>.Perm (h :: t0 :: t) := List.Perm.swap _ _ _

theorem set_set_perm {α : Type} (x y : α) :
    ∀ (a : List α) (i j : Nat), a[i]? = some x → a[j]? = some y →
      ((a.set i y).set j x).Perm a
  | [], i, j, hi, _ => by simp at hi
  | h :: t, 0, 0, hi, hj => by
    simp only [List.getElem?_cons_zero, Option.some.injEq] at hi hj
    subst hi
    simp
  | h :: t, 0, j + 1, hi, hj => by
    simp only [List.getElem?_cons_zero, Option.some.injEq] at hi
    simp only [List.getElem?_cons_succ] at hj
    subst hi
    simpa using cons_set_perm h y t j hj
  | h :: t, i + 1, 0, hi, hj => by
    simp only [List.getElem?_cons_zero, Option.some.injEq] at hj
    simp only [List.getElem?_cons_succ] at hi
    subst hj
    simpa using cons_set_perm h x t i hi
  | h :: t, i + 1, j + 1, hi, hj => by
    simp only [List.getElem?_cons_succ] at hi hj
    simpa using set_set_perm x y t i j hi hj

/-- A swap permutes the array. -/
theorem swap_perm {α : Type} (a : List α) (i j : Nat) : (swap a i j).Perm a := by
  unfold swap
  split
  · next x y hi hj => exact set_set_perm x y a i j hi hj
  · exact List.Perm.refl a

theorem swap_length {α : Type} (a : List α) (i j : Nat) : (swap a i j).length = a.length :=
  (swap_perm a i j).length_eq

/-- The swap does not look at the elements: it commutes with `List.map`. -/
theorem swap_map {α β : Type} (f : α → β) (a : List α) (i j : Nat) :
    swap (a.map f) i j = (swap a i j).map f := by
  unfold swap
  simp only [List.getElem?_map]
  cases hi : a[i]? <;> cases hj : a[j]? <;> simp [List.map_set]

/-- A run of the loop that returns, returns a permutation of what it started from. -/
theorem shuffleLoop_perm {α : Type} (crypto : Crypto) :
    ∀ (i : Nat) (a : List α) (s : Entropy) (out : List α) (s' : Entropy),
      shuffleLoop crypto i a s = (.ok out, s') → out.Perm a
  | 0, a, s, out, s', h => by
    simp only [shuffleLoop, Prod.mk.injEq, Outcome.ok.injEq] at h
    rw [← h.1]
  | i + 1, a, s, out, s', h => by
    rw [shuffleLoop] at h
    generalize randomInt crypto (.integer ((i + 1 : Nat) + 1)) s = r at h
    rcases r with ⟨j | e, t⟩
    · exact (shuffleLoop_perm crypto i _ t out s' h).trans (swap_perm a (i + 1) j)
    · simp at h

/-- A run of the loop that fails, fails because the platform did. -/
theorem shuffleLoop_error {α : Type} (crypto : Crypto) :
    ∀ (i : Nat) (a : List α) (s : Entropy) (e : Err),
      (shuffleLoop crypto i a s).1 = .error e → e = .entropyUnavailable ∨ e = .platform
  | 0, a, s, e, h => by simp [shuffleLoop] at h
  | i + 1, a, s, e, h => by
    rw [shuffleLoop] at h
    have hr := randomInt_error crypto ((i + 1 : Nat) + 1) (by omega) s
    generalize randomInt crypto (.integer ((i + 1 : Nat) + 1)) s = r at h hr
    rcases r with ⟨j | e', t⟩
    · exact shuffleLoop_error crypto i _ t e h
    · simp only [Outcome.error.injEq] at h
      exact hr e (by rw [h])

/-- The loop commutes with `List.map`: which positions move where depends on the
draws alone. -/
theorem shuffleLoop_map {α β : Type} (crypto : Crypto) (f : α → β) :
    ∀ (i : Nat) (a : List α) (s : Entropy),
      shuffleLoop crypto i (a.map f) s =
        match shuffleLoop crypto i a s with
        | (.ok out, s') => (.ok (out.map f), s')
        | (.error e, s') => (.error e, s')
  | 0, a, s => by simp [shuffleLoop]
  | i + 1, a, s => by
    rw [shuffleLoop, shuffleLoop]
    generalize randomInt crypto (.integer ((i + 1 : Nat) + 1)) s = r
    rcases r with ⟨j | e, t⟩
    · simp only [swap_map]
      exact shuffleLoop_map crypto f i _ t
    · rfl

/-! ## `shuffleArray` and `pickWinners` -/

theorem shuffleArray_map {α β : Type} (crypto : Crypto) (f : α → β) (a : List α)
    (s : Entropy) :
    shuffleArray crypto (a.map f) s =
      match shuffleArray crypto a s with
      | (.ok out, s') => (.ok (out.map f), s')
      | (.error e, s') => (.error e, s') := by
  simp only [shuffleArray, List.length_map]
  exact shuffleLoop_map crypto f _ a s

/-- Past its guards `pickWinners` is `shuffleArray` followed by `slice(0, count)`. -/
theorem pickWinners_pos {α : Type} (crypto : Crypto) (arr : List α) (count : Int)
    (h1 : 1 ≤ count) (h2 : count ≤ arr.length) (s : Entropy) :
    pickWinners crypto (.array arr) (.integer count) s =
      match shuffleArray crypto arr s with
      | (.ok shuffled, s') => (.ok (shuffled.take count.toNat), s')
      | (.error e, s') => (.error e, s') := by
  have h1' : ¬ count ≤ 0 := by omega
  have h2' : ¬ count > arr.length := by omega
  simp only [pickWinners, JsValue.isInteger, JsValue.toInt, h1', h2', Bool.not_true,
    Bool.false_or, decide_False, Bool.false_eq_true, if_false]

theorem shuffleArray_ok_perm {α : Type} (crypto : Crypto) (L : List α) (s : Entropy)
    (out : List α) (s' : Entropy) (h : shuffleArray crypto L s = (.ok out, s')) :
    out.Perm L :=
  shuffleLoop_perm crypto _ L s out s' h

theorem shuffleArray_error {α : Type} (crypto : Crypto) (L : List α) (s : Entropy) (e : Err)
    (h : (shuffleArray crypto L s).1 = .error e) : e = .entropyUnavailable ∨ e = .platform :=
  shuffleLoop_error crypto _ L s e h

/-- Claim C3. Whatever the draws, a call of `shuffleArray(L)` that returns,
returns a list of the same length as `L` that is a permutation of `L` (same
elements, same multiplicities), so sorting it gives the same list as sorting
`L`; a call that does not return failed in the platform. -/
theorem shuffleArray_perm {α : Type} (crypto : Crypto) (L : List α) (s : Entropy) :
    (∀ out s', shuffleArray crypto L s = (.ok out, s') →
        out.length = L.length ∧ out.Perm L ∧
          ∀ (r : α → α → Prop) [DecidableRel r] [IsTotal α r] [IsTrans α r] [IsAntisymm α r],
            out.insertionSort r = L.insertionSort r) ∧
      (∀ e, (shuffleArray crypto L s).1 = .error e → e = .entropyUnavailable ∨ e = .platform) := by
  refine ⟨?_, fun e h => shuffleArray_error crypto L s e h⟩
  intro out s' h
  have hp : out.Perm L := shuffleArray_ok_perm crypto L s out s' h
  refine ⟨hp.length_eq, hp, ?_⟩
  intro r _ _ _ _
  apply List.eq_of_perm_of_sorted (r := r)
  · exact ((List.perm_insertionSort r out).trans hp).trans (List.perm_insertionSort r L).symm
  · exact List.sorted_insertionSort r out
  · exact List.sorted_insertionSort r L

theorem shuffleArray_perm_witness :
    shuffleArray legacyCrypto [10, 20, 30, 40] [0, 0, 0, 1, 0, 0, 0, 2, 0, 0, 0, 0] =
        (.ok [40, 10, 30, 20], []) ∧
      [40, 10, 30, 20].length = [10, 20, 30, 40].length ∧
      [40, 10, 30, 20].Perm [10, 20, 30, 40] :=
  have h := (shuffleArray_perm legacyCrypto [10, 20, 30, 40]
    [0, 0, 0, 1, 0, 0, 0, 2, 0, 0, 0, 0]).1 [40, 10, 30, 20] [] (by decide)
  ⟨by decide, h.1, h.2.1⟩

/-- Claim C10. For `1 ≤ count ≤ length(arr)` and any draws, `pickWinners(arr,
count)` is the first `count` elements of `shuffleArray(arr)` run on the same
draws (and fails as `shuffleArray` does when that fails); in particular
`pickWinners(arr, length(arr))` is `shuffleArray(arr)`. -/
theorem pickWinners_eq_take {α : Type} (crypto : Crypto) (arr : List α) (count : Int)
    (h1 : 1 ≤ count) (h2 : count ≤ arr.length) (s : Entropy) :
    (∀ shuffled s', shuffleArray crypto arr s = (.ok shuffled, s') →
        pickWinners crypto (.array arr) (.integer count) s =
          (.ok (shuffled.take count.toNat), s')) ∧
      (∀ e s', shuffleArray crypto arr s = (.error e, s') →
        pickWinners crypto (.array arr) (.integer count) s = (.error e, s')) ∧
      pickWinners crypto (.array arr) (.integer arr.length) s = shuffleArray crypto arr s := by
  refine ⟨?_, ?_, ?_⟩
  · intro shuffled s' h
    rw [pickWinners_pos crypto arr count h1 h2, h]
  · intro e s' h
    rw [pickWinners_pos crypto arr count h1 h2, h]
  · rw [pickWinners_pos crypto arr arr.length (by omega) (le_refl _)]
    have hall := shuffleArray_ok_perm crypto arr s
    generalize shuffleArray crypto arr s = r at hall
    rcases r with ⟨out | e, t⟩
    · have hlen := (hall out t rfl).length_eq
      simp only [Int.toNat_ofNat]
      rw [List.take_of_length_le (by omega)]
    · rfl

theorem pickWinners_eq_take_witness :
    pickWinners legacyCrypto (.array [10, 20, 30, 40]) (.integer 2)
        [0, 0, 0, 1, 0, 0, 0, 2, 0, 0, 0, 0] = (.ok [40, 10], []) :=
  (pickWinners_eq_take legacyCrypto [10, 20, 30, 40] 2 (by decide) (by decide)
    [0, 0, 0, 1, 0, 0, 0, 2, 0, 0, 0, 0]).1 [40, 10, 30, 20] [] (by decide)

/-- Claim C6. For a list `arr`, `pickWinners(arr, count)` fails with an
invalid-argument error if and only if `count` is not a positive integer or
`count > length(arr)`; when it fails so, the secure source is untouched; and
for the empty list it fails so for every `count`. -/
theorem pickWinners_guard {α : Type} (crypto : Crypto) (arr : List α) (count : JsValue)
    (s : Entropy) :
    ((∃ message, (pickWinners crypto (.array arr) count s).1 =
          .error (.invalidArgument message)) ↔
        ((¬ ∃ z : Int, count = .integer z ∧ 0 < z) ∨
          ∃ z : Int, count = .integer z ∧ (arr.length : Int) < z)) ∧
      (∀ message, (pickWinners crypto (.array arr) count s).1 =
          .error (.invalidArgument message) →
        (pickWinners crypto (.array arr) count s).2 = s) ∧
      (arr = [] → ∃ message, (pickWinners crypto (.array arr) count s).1 =
          .error (.invalidArgument message)) := by
  cases count with
  | nonInteger =>
    have hrun : pickWinners crypto (.array arr) .nonInteger s =
        (.error (.invalidArgument "count must be a positive integer"), s) := by
      simp [pickWinners, JsValue.isInteger]
    exact ⟨⟨fun _ => Or.inl (by simp), fun _ => ⟨_, by rw [hrun]⟩⟩, fun _ _ => by rw [hrun],
      fun _ => ⟨_, by rw [hrun]⟩⟩
  | integer z =>
    by_cases hz : z ≤ 0
    · have hrun : pickWinners crypto (.array arr) (.integer z) s =
          (.error (.invalidArgument "count must be a positive integer"), s) := by
        simp [pickWinners, JsValue.isInteger, JsValue.toInt, hz]
      refine ⟨⟨fun _ => Or.inl ?_, fun _ => ⟨_, by rw [hrun]⟩⟩, fun _ _ => by rw [hrun],
        fun _ => ⟨_, by rw [hrun]⟩⟩
      rintro ⟨w, hw, hpos⟩
      cases hw
      omega
    · by_cases hlen : z > arr.length
      · have hrun : pickWinners crypto (.array arr) (.integer z) s =
            (.error (.invalidArgument "count cannot be greater than array length"), s) := by
          simp [pickWinners, JsValue.isInteger, JsValue.toInt, hz, hlen]
        exact ⟨⟨fun _ => Or.inr ⟨z, rfl, hlen⟩, fun _ => ⟨_, by rw [hrun]⟩⟩,
          fun _ _ => by rw [hrun], fun _ => ⟨_, by rw [hrun]⟩⟩
      · have hrun := pickWinners_pos crypto arr z (by omega) (by omega) s
        have herr := shuffleArray_error crypto arr s
        have hno : ∀ message, (pickWinners crypto (.array arr) (.integer z) s).1 ≠
            .error (.invalidArgument message) := by
          intro message h
          rw [hrun] at h
          generalize shuffleArray crypto arr s = r at h herr
          rcases r with ⟨out | e, t⟩
          · simp at h
          · simp only [Outcome.error.injEq] at h
            rcases herr e rfl with h' | h' <;> rw [h'] at h <;> cases h
        refine ⟨⟨fun ⟨m, hm⟩ => absurd hm (hno m), ?_⟩, fun m hm => absurd hm (hno m), ?_⟩
        · rintro (h | ⟨w, hw, hlt⟩)
          · exact absurd ⟨z, rfl, by omega⟩ h
          · cases hw
            omega
        · intro hnil
          subst hnil
          simp at hlen
          omega

theorem pickWinners_guard_witness :
    (∃ message, (pickWinners legacyCrypto (.array [10, 20, 30]) (.integer 4)
        [0, 0, 0, 1]).1 = .error (.invalidArgument message)) ∧
      (pickWinners legacyCrypto (.array [10, 20, 30]) (.integer 4) [0, 0, 0, 1]).2 =
        [0, 0, 0, 1] :=
  have h := pickWinners_guard legacyCrypto [10, 20, 30] (.integer 4) [0, 0, 0, 1]
  have hfail := h.1.2 (Or.inr ⟨4, rfl, by decide⟩)
  ⟨hfail, hfail.elim fun m hm => h.2.1 m hm⟩

/-- Claim C5. For `1 ≤ count ≤ length(arr)` and any draws, a call of
`pickWinners(arr, count)` that returns, returns exactly `count` elements, read
from `count` pairwise distinct positions of `arr`; so if the values of `arr`
are pairwise distinct, so are the winners. A call that does not return failed
in the platform. -/
theorem pickWinners_distinct_positions {α : Type} (crypto : Crypto) (arr : List α)
    (count : Int) (h1 : 1 ≤ count) (h2 : count ≤ arr.length) (s : Entropy) :
    (∀ winners s', pickWinners crypto (.array arr) (.integer count) s = (.ok winners, s') →
        (winners.length : Int) = count ∧
          (∃ positions : List (Fin arr.length),
            positions.Nodup ∧ (positions.length : Int) = count ∧
              winners = positions.map arr.get) ∧
          (arr.Nodup → winners.Nodup)) ∧
      (∀ e, (pickWinners crypto (.array arr) (.integer count) s).1 = .error e →
        e = .entropyUnavailable ∨ e = .platform) := by
  have hrun := pickWinners_pos crypto arr count h1 h2 s
  have hmap := shuffleArray_map crypto arr.get (List.finRange arr.length) s
  rw [List.finRange_map_get] at hmap
  have hfin := shuffleArray_ok_perm crypto (List.finRange arr.length) s
  have hfail := shuffleArray_error crypto (List.finRange arr.length) s
  rw [hmap] at hrun
  generalize shuffleArray crypto (List.finRange arr.length) s = r at hrun hfin hfail
  rcases r with ⟨out | e, t⟩
  · have hperm := hfin out t rfl
    have hlen := hperm.length_eq
    rw [List.length_finRange] at hlen
    have hnd : out.Nodup := hperm.nodup_iff.mpr (List.nodup_finRange _)
    refine ⟨?_, fun e he => by rw [hrun] at he; simp at he⟩
    intro winners s' hw
    rw [hrun] at hw
    simp only [Prod.mk.injEq, Outcome.ok.injEq] at hw
    have hwin : winners = (out.take count.toNat).map arr.get := by
      rw [← hw.1, List.map_take]
    have hl : ((out.take count.toNat).length : Int) = count := by
      rw [List.length_take]
      omega
    refine ⟨?_, ⟨out.take count.toNat, hnd.sublist (List.take_sublist _ _), hl, hwin⟩, ?_⟩
    · rw [hwin, List.length_map]
      exact hl
    · intro harr
      rw [← hw.1]
      have hsh : (out.map arr.get).Nodup := by
        have := hperm.map arr.get
        rw [List.finRange_map_get] at this
        exact this.nodup_iff.mpr harr
      exact hsh.sublist (List.take_sublist _ _)
  · refine ⟨fun winners s' hw => by rw [hrun] at hw; simp at hw, ?_⟩
    intro e' he
    rw [hrun] at he
    simp only [Outcome.error.injEq] at he
    exact hfail e' (by rw [he])

theorem pickWinners_distinct_positions_witness :
    pickWinners legacyCrypto (.array [1, 2, 3, 4, 5]) (.integer 3)
        [0, 0, 0, 2, 0, 0, 0, 0, 0, 0, 0, 7, 0, 0, 0, 1] = (.ok [4, 5, 2], []) ∧
      (([4, 5, 2] : List Nat).length : Int) = 3 ∧ ([4, 5, 2] : List Nat).Nodup :=
  have h := (pickWinners_distinct_positions legacyCrypto [1, 2, 3, 4, 5] 3 (by decide)
    (by decide) [0, 0, 0, 2, 0, 0, 0, 0, 0, 0, 0, 7, 0, 0, 0, 1]).1 [4, 5, 2] [] (by decide)
  ⟨by decide, h.1, h.2.2 (by decide)⟩

/-! ## Scripted draws on the rejection-sampling path -/

theorem readUInt32BE_encodeU32 (u : Nat) (hu : u < 2 ^ 32) :
    readUInt32BE (encodeU32 u) 0 = u := by
  simp only [readUInt32BE, readUIntBE, encodeU32, List.drop_zero, List.take, List.foldl,
    Fin.ofNat, Fin.val_mk]
  omega

/-- A scripted word below the bound is accepted and returned as it is. -/
theorem randomInt_encodeU32 (n j : Nat) (hj : j < n) (hn : n ≤ 2 ^ 32 - 1) (rest : Entropy) :
    randomInt legacyCrypto (.integer n) (encodeU32 j ++ rest) = (.ok j, rest) := by
  rw [randomInt_legacy legacyCrypto rfl n (by omega)]
  have hlim := le_limit n (by omega) hn
  have hread := readUInt32BE_encodeU32 j (by omega)
  have hd : encodeU32 j ++ rest =
      Fin.ofNat (j / 2 ^ 24) :: Fin.ofNat (j / 2 ^ 16) :: Fin.ofNat (j / 2 ^ 8) ::
        Fin.ofNat j :: rest := rfl
  rw [hd, rejectionLoop]
  have hread' : readUInt32BE [Fin.ofNat (j / 2 ^ 24), Fin.ofNat (j / 2 ^ 16),
      Fin.ofNat (j / 2 ^ 8), Fin.ofNat j] 0 = j := hread
  simp only [hread', Int.toNat_ofNat]
  rw [if_pos (by omega), Nat.mod_eq_of_lt hj]

/-- On scripted valid draws the loop returns the list with the swaps applied,
having consumed exactly the script. -/
theorem shuffleLoop_encodeDraws {α : Type} :
    ∀ (i : Nat) (a : List α) (js : List Nat) (rest : Entropy),
      validDraws i js = true → i + 1 ≤ 2 ^ 32 - 1 →
        shuffleLoop legacyCrypto i a (encodeDraws js ++ rest) = (.ok (applyDraws i a js), rest)
  | 0, a, js, rest, hv, _ => by
    cases js with
    | nil => simp [shuffleLoop, encodeDraws, applyDraws]
    | cons j js => simp [validDraws] at hv
  | i + 1, a, [], rest, hv, _ => by simp [validDraws] at hv
  | i + 1, a, j :: js, rest, hv, hi => by
    simp only [validDraws, Bool.and_eq_true, decide_eq_true_eq] at hv
    rw [shuffleLoop, encodeDraws, List.append_assoc]
    have hdraw := randomInt_encodeU32 (i + 1 + 1) j (by omega) hi (encodeDraws js ++ rest)
    simp only [Nat.cast_add, Nat.cast_one] at hdraw ⊢
    rw [hdraw]
    simp only [applyDraws]
    exact shuffleLoop_encodeDraws i _ js rest hv.2 (by omega)

/-! ## The swaps of a draw sequence -/

theorem applyDraws_perm {α : Type} :
    ∀ (i : Nat) (a : List α) (js : List Nat), (applyDraws i a js).Perm a
  | 0, a, js => by simp [applyDraws]
  | i + 1, a, [] => by simp [applyDraws]
  | i + 1, a, j :: js => by
    simp only [applyDraws]
    exact (applyDraws_perm i _ js).trans (swap_perm a (i + 1) j)

theorem applyDraws_length {α : Type} (i : Nat) (a : List α) (js : List Nat) :
    (applyDraws i a js).length = a.length :=
  (applyDraws_perm i a js).length_eq

/-- A swap inside a prefix leaves what follows the prefix alone. -/
theorem swap_append {α : Type} (pre post : List α) (i j : Nat) (hi : i < pre.length)
    (hj : j < pre.length) : swap (pre ++ post) i j = swap pre i j ++ post := by
  unfold swap
  rw [List.getElem?_append_left hi, List.getElem?_append_left hj]
  rw [List.getElem?_eq_getElem hi, List.getElem?_eq_getElem hj]
  simp only
  rw [List.set_append, if_pos hi, List.set_append, if_pos (by simpa using hj)]

/-- The loop entered at `i` only touches positions `0 .. i`. -/
theorem applyDraws_append {α : Type} :
    ∀ (i : Nat) (pre post : List α) (js : List Nat), i < pre.length →
      validDraws i js = true → applyDraws i (pre ++ post) js = applyDraws i pre js ++ post
  | 0, pre, post, js, _, _ => by simp [applyDraws]
  | i + 1, pre, post, [], _, hv => by simp [validDraws] at hv
  | i + 1, pre, post, j :: js, hi, hv => by
    simp only [validDraws, Bool.and_eq_true, decide_eq_true_eq] at hv
    simp only [applyDraws]
    rw [swap_append pre post (i + 1) j hi (by omega)]
    exact applyDraws_append i _ post js (by rw [swap_length]; omega) hv.2

/-- After the swap of positions `i` and `j`, position `i` holds the old `a[j]`. -/
theorem swap_getElem?_left {α : Type} (a : List α) (i j : Nat) (x y : α)
    (hi : a[i]? = some x) (hj : a[j]? = some y) : (swap a i j)[i]? = some y := by
  have hil : i < a.length := (List.getElem?_eq_some_iff.mp hi).1
  unfold swap
  simp only [hi, hj]
  rw [List.getElem?_set]
  by_cases hji : j = i
  · subst hji
    rw [hi] at hj
    simp only [Option.some.injEq] at hj
    simp [hj, hil]
  · rw [if_neg hji, List.getElem?_set]
    simp [hil]

/-- On a list of length `i + 2` the swap of positions `i + 1` and `j` puts the
old `a[j]` last. -/
theorem swap_split {α : Type} (i : Nat) (a : List α) (j : Nat) (ha : a.length = i + 2)
    (hj : j ≤ i + 1) :
    ∃ y, a[j]? = some y ∧ swap a (i + 1) j = (swap a (i + 1) j).take (i + 1) ++ [y] := by
  have hjl : j < a.length := by omega
  have hil : i + 1 < a.length := by omega
  refine ⟨a[j], List.getElem?_eq_getElem hjl, ?_⟩
  have htop := swap_getElem?_left a (i + 1) j a[i + 1] a[j]
    (List.getElem?_eq_getElem hil) (List.getElem?_eq_getElem hjl)
  have hlen : (swap a (i + 1) j).length = i + 2 := by rw [swap_length, ha]
  have hdrop : (swap a (i + 1) j).drop (i + 1) = [a[j]] := by
    obtain ⟨h1, h2⟩ := List.getElem?_eq_some_iff.mp htop
    rw [← List.getElem_cons_drop _ _ h1, h2, List.drop_eq_nil_of_le (by omega)]
  conv_lhs => rw [← List.take_append_drop (i + 1) (swap a (i + 1) j), hdrop]

/-- One turn of the loop on a list of length `i + 2`: the element drawn goes to
the last position, and the rest of the loop works on the first `i + 1`
positions. -/
theorem applyDraws_succ {α : Type} (i : Nat) (a : List α) (j : Nat) (js : List Nat)
    (ha : a.length = i + 2) (hj : j ≤ i + 1) (hv : validDraws i js = true) :
    ∃ y, a[j]? = some y ∧
      applyDraws (i + 1) a (j :: js) =
        applyDraws i ((swap a (i + 1) j).take (i + 1)) js ++ [y] := by
  obtain ⟨y, hy, hsplit⟩ := swap_split i a j ha hj
  refine ⟨y, hy, ?_⟩
  have hlen : (swap a (i + 1) j).length = i + 2 := by rw [swap_length, ha]
  simp only [applyDraws]
  conv_lhs => rw [hsplit]
  exact applyDraws_append i _ _ js (by rw [List.length_take, hlen]; omega) hv

theorem validDraws_zero (js : List Nat) : validDraws 0 js = true ↔ js = [] := by
  cases js <;> simp [validDraws]

/-- Distinct valid draw sequences shuffle a list of distinct elements differently. -/
theorem applyDraws_injective {α : Type} :
    ∀ (i : Nat) (a : List α) (js js' : List Nat), a.length = i + 1 → a.Nodup →
      validDraws i js = true → validDraws i js' = true →
        applyDraws i a js = applyDraws i a js' → js = js'
  | 0, a, js, js', _, _, hv, hv', _ => by
    rw [validDraws_zero] at hv hv'
    rw [hv, hv']
  | i + 1, a, [], _, _, _, hv, _, _ => by simp [validDraws] at hv
  | i + 1, a, _ :: _, [], _, _, _, hv', _ => by simp [validDraws] at hv'
  | i + 1, a, j :: js, j' :: js', ha, hnd, hv, hv', heq => by
    simp only [validDraws, Bool.and_eq_true, decide_eq_true_eq] at hv hv'
    obtain ⟨y, hy, h1⟩ := applyDraws_succ i a j js ha hv.1 hv.2
    obtain ⟨y', hy', h2⟩ := applyDraws_succ i a j' js' ha hv'.1 hv'.2
    rw [h1, h2] at heq
    have hlens : (applyDraws i ((swap a (i + 1) j).take (i + 1)) js).length =
        (applyDraws i ((swap a (i + 1) j').take (i + 1)) js').length := by
      simp only [applyDraws_length, List.length_take, swap_length]
    obtain ⟨hpre, hlast⟩ := List.append_inj heq hlens
    simp only [List.cons.injEq, and_true] at hlast
    have hjj : j = j' := by
      obtain ⟨hjl, hjy⟩ := List.getElem?_eq_some_iff.mp hy
      obtain ⟨hjl', hjy'⟩ := List.getElem?_eq_some_iff.mp hy'
      exact (List.Nodup.getElem_inj_iff hnd).mp (by rw [hjy, hjy', hlast])
    subst hjj
    have hnd' : ((swap a (i + 1) j).take (i + 1)).Nodup :=
      ((swap_perm a (i + 1) j).nodup_iff.mpr hnd).sublist (List.take_sublist _ _)
    have hl' : ((swap a (i + 1) j).take (i + 1)).length = i + 1 := by
      rw [List.length_take, swap_length, ha]
      omega
    rw [applyDraws_injective i _ js js' hl' hnd' hv.2 hv'.2 hpre]

/-- Every permutation of the list is the shuffle for some valid draw sequence. -/
theorem applyDraws_surjective {α : Type} :
    ∀ (i : Nat) (a P : List α), a.length = i + 1 → P.Perm a →
      ∃ js, validDraws i js = true ∧ applyDraws i a js = P
  | 0, a, P, ha, hP => by
    refine ⟨[], rfl, ?_⟩
    match a, ha with
    | [x], _ => simpa [applyDraws] using (List.perm_singleton.mp hP).symm
  | i + 1, a, P, ha, hP => by
    have hPne : P ≠ [] := by
      intro h
      have := hP.length_eq
      rw [h, ha] at this
      simp at this
    have hmem : P.getLast hPne ∈ a := hP.subset (List.getLast_mem hPne)
    obtain ⟨j, hjl, hjz⟩ := List.getElem_of_mem hmem
    obtain ⟨y, hy, hsplit⟩ := swap_split i a j ha (by omega)
    have hyz : y = P.getLast hPne := by
      rw [List.getElem?_eq_getElem hjl, Option.some.injEq] at hy
      rw [← hy, hjz]
    have hperm : ((swap a (i + 1) j).take (i + 1) ++ [y]).Perm (P.dropLast ++ [y]) := by
      rw [← hsplit, hyz, List.dropLast_append_getLast hPne]
      exact (swap_perm a (i + 1) j).trans hP.symm
    have hpre : P.dropLast.Perm ((swap a (i + 1) j).take (i + 1)) :=
      ((List.perm_append_right_iff [y]).mp hperm).symm
    have hl : ((swap a (i + 1) j).take (i + 1)).length = i + 1 := by
      rw [List.length_take, swap_length, ha]
      omega
    obtain ⟨js, hv, hjs⟩ := applyDraws_surjective i _ P.dropLast hl hpre
    refine ⟨j :: js, ?_, ?_⟩
    · simp only [validDraws, Bool.and_eq_true, decide_eq_true_eq]
      exact ⟨by omega, hv⟩
    · obtain ⟨y', hy', h1⟩ := applyDraws_succ i a j js ha (by omega) hv
      rw [hy, Option.some.injEq] at hy'
      rw [h1, hjs, ← hy', hyz, List.dropLast_append_getLast hPne]

/-- On scripted valid draws `shuffleArray` returns the list with the swaps of
the draws applied. -/
theorem shuffleArray_encodeDraws {α : Type} (L : List α) (js : List Nat)
    (hlen : L.length < 2 ^ 32) (hv : validDraws (L.length - 1) js = true) :
    shuffleArray legacyCrypto L (encodeDraws js) =
      (.ok (applyDraws (L.length - 1) L js), []) := by
  have h := shuffleLoop_encodeDraws (L.length - 1) L js [] hv (by omega)
  rw [List.append_nil] at h
  exact h

/-! ## The rejection-sampling loop on its own -/

/-- One turn of the sampling loop on a scripted 32-bit word. -/
theorem rejectionLoop_encodeU32 (n lim u : Nat) (hu : u < 2 ^ 32) (rest : Entropy) :
    rejectionLoop n lim (encodeU32 u ++ rest) =
      if u < lim then (.ok (u % n), rest) else rejectionLoop n lim rest := by
  have hd : encodeU32 u ++ rest =
      Fin.ofNat (u / 2 ^ 24) :: Fin.ofNat (u / 2 ^ 16) :: Fin.ofNat (u / 2 ^ 8) ::
        Fin.ofNat u :: rest := rfl
  have hread : readUInt32BE [Fin.ofNat (u / 2 ^ 24), Fin.ofNat (u / 2 ^ 16),
      Fin.ofNat (u / 2 ^ 8), Fin.ofNat u] 0 = u := readUInt32BE_encodeU32 u hu
  rw [hd, rejectionLoop]
  simp only [hread]

/-- Scripted words at or above the bound are all discarded. -/
theorem rejectionLoop_skip (n lim : Nat) :
    ∀ (rejected : List Nat), (∀ r ∈ rejected, lim ≤ r ∧ r < 2 ^ 32) → ∀ (t : Entropy),
      rejectionLoop n lim (encodeDraws rejected ++ t) = rejectionLoop n lim t
  | [], _, t => by simp [encodeDraws]
  | r :: rs, h, t => by
    have hr := h r (List.mem_cons_self r rs)
    rw [encodeDraws, List.append_assoc, rejectionLoop_encodeU32 n lim r hr.2,
      if_neg (by omega)]
    exact rejectionLoop_skip n lim rs (fun x hx => h x (List.mem_cons_of_mem r hx)) t

/-- Claim C17. For `1 ≤ n ≤ 2^32 - 1` acceptable draws exist (`limit ≥ n > 0`),
and whenever the secure source supplies 32-bit words of which `u` is the first
one below `limit`, the rejection-sampling path of `randomInt` returns
`u % n`, having consumed exactly the discarded words and `u`. -/
theorem randomInt_first_accepted (crypto : Crypto) (hc : crypto.randomInt = none) (n : Nat)
    (h1 : 1 ≤ n) (h2 : n ≤ 2 ^ 32 - 1) (rejected : List Nat)
    (hrej : ∀ r ∈ rejected, limit n ≤ r ∧ r < 2 ^ 32) (u : Nat) (hu : u < limit n)
    (rest : Entropy) :
    0 < n ∧ n ≤ limit n ∧
      randomInt crypto (.integer n) (encodeDraws rejected ++ (encodeU32 u ++ rest)) =
        (.ok (u % n), rest) := by
  refine ⟨by omega, le_limit n h1 h2, ?_⟩
  rw [randomInt_legacy crypto hc n (by omega), Int.toNat_ofNat,
    rejectionLoop_skip n (limit n) rejected hrej]
  have hlim : limit n ≤ maxUint32 := Nat.sub_le _ _
  have hM : maxUint32 = 2 ^ 32 - 1 := by decide
  rw [rejectionLoop_encodeU32 n (limit n) u (by omega), if_pos hu]

theorem randomInt_first_accepted_witness :
    0 < 3 ∧ 3 ≤ limit 3 ∧
      randomInt legacyCrypto (.integer (3 : Nat))
          (encodeDraws [4294967295, 4294967295] ++ (encodeU32 7 ++ [9])) = (.ok (7 % 3), [9]) :=
  randomInt_first_accepted legacyCrypto rfl 3 (by decide) (by decide)
    [4294967295, 4294967295] (by decide) 7 (by decide) [9]

theorem rejectionLoop_limit_zero (n : Nat) :
    ∀ (s : Entropy),
      rejectionLoop n 0 s = (.error .entropyUnavailable, s.drop (4 * (s.length / 4)))
  | b0 :: b1 :: b2 :: b3 :: rest => by
    rw [rejectionLoop]
    simp only [Nat.not_lt_zero, if_false]
    rw [rejectionLoop_limit_zero n rest]
    have : 4 * ((b0 :: b1 :: b2 :: b3 :: rest).length / 4) = 4 * (rest.length / 4) + 4 := by
      simp only [List.length_cons]
      omega
    rw [this]
    rfl
  | [] => by simp [rejectionLoop]
  | [_] => by simp [rejectionLoop]
  | [_, _] => by simp [rejectionLoop]
  | [_, _, _] => by simp [rejectionLoop]

/-- Claim C18. For an integer `maxExclusive ≥ 2^32` the rejection-sampling path
computes `limit = 0`; every 32-bit draw the source supplies is then rejected
(all complete 4-byte draws are consumed) and no value is ever returned. -/
theorem randomInt_wide_never_returns (crypto : Crypto) (hc : crypto.randomInt = none)
    (maxExclusive : Int) (hwide : 2 ^ 32 ≤ maxExclusive) (s : Entropy) :
    limit maxExclusive.toNat = 0 ∧
      randomInt crypto (.integer maxExclusive) s =
        (.error .entropyUnavailable, s.drop (4 * (s.length / 4))) ∧
      ∀ v s', randomInt crypto (.integer maxExclusive) s ≠ (.ok v, s') := by
  have hlim : limit maxExclusive.toNat = 0 := by
    have hM : maxUint32 = 2 ^ 32 - 1 := by decide
    have : maxUint32 % maxExclusive.toNat = maxUint32 := Nat.mod_eq_of_lt (by omega)
    unfold limit
    omega
  have hrun : randomInt crypto (.integer maxExclusive) s =
      (.error .entropyUnavailable, s.drop (4 * (s.length / 4))) := by
    rw [randomInt_legacy crypto hc maxExclusive (by omega), hlim]
    exact rejectionLoop_limit_zero _ s
  refine ⟨hlim, hrun, ?_⟩
  intro v s' h
  rw [hrun] at h
  cases h

theorem randomInt_wide_never_returns_witness :
    limit ((2 : Int) ^ 32).toNat = 0 ∧
      randomInt legacyCrypto (.integer (2 ^ 32)) [0, 0, 0, 0, 0, 0, 0, 1, 7] =
        (.error .entropyUnavailable, [7]) :=
  have h := randomInt_wide_never_returns legacyCrypto rfl (2 ^ 32) (by decide)
    [0, 0, 0, 0, 0, 0, 0, 1, 7]
  ⟨h.1, h.2.1⟩

/-! ## The turns of the shuffle -/

/-- Recording the turns does not change what the loop returns or draws. -/
theorem shuffleLoopTurns_erase {α : Type} (crypto : Crypto) :
    ∀ (i : Nat) (a : List α) (s : Entropy),
      ((shuffleLoopTurns crypto i a s).1, (shuffleLoopTurns crypto i a s).2.2) =
        shuffleLoop crypto i a s
  | 0, a, s => rfl
  | i + 1, a, s => by
    rw [shuffleLoopTurns, shuffleLoop]
    generalize randomInt crypto (.integer ((i + 1 : Nat) + 1)) s = r
    rcases r with ⟨j | e, t⟩
    · exact shuffleLoopTurns_erase crypto i _ t
    · rfl

/-- What holds of every turn, whether the loop returns or fails: the loop
variable is between `1` and the entry value, the bound passed is the loop
variable plus one, the call did not fail on its argument, and a draw that came
back is at most the loop variable. -/
theorem shuffleLoopTurns_safe {α : Type} (crypto : Crypto) :
    ∀ (i : Nat) (a : List α) (s : Entropy) (t : Turn),
      t ∈ (shuffleLoopTurns crypto i a s).2.1 →
        1 ≤ t.i ∧ t.i ≤ i ∧ t.bound = .integer ((t.i + 1 : Nat)) ∧
          (∀ message, t.result ≠ .error (.invalidArgument message)) ∧
          ∀ j, t.result = .ok j → j ≤ t.i
  | 0, a, s, t, h => by simp [shuffleLoopTurns] at h
  | i + 1, a, s, t, h => by
    rw [shuffleLoopTurns] at h
    have hlt := randomInt_ok_lt crypto ((i + 1 : Nat) + 1) (by omega) s
    have herr := randomInt_error crypto ((i + 1 : Nat) + 1) (by omega) s
    generalize randomInt crypto (.integer ((i + 1 : Nat) + 1)) s = r at h hlt herr
    rcases r with ⟨j | e, s'⟩
    · simp only [List.mem_cons] at h
      rcases h with h | h
      · subst h
        refine ⟨by simp, by simp, by simp, by simp, ?_⟩
        intro j' hj'
        simp only [Outcome.ok.injEq] at hj'
        have := hlt j s' rfl
        subst hj'
        simp only
        omega
      · obtain ⟨h1, h2, h3⟩ := shuffleLoopTurns_safe crypto i _ s' t h
        exact ⟨h1, by omega, h3⟩
    · simp only [List.mem_singleton] at h
      subst h
      refine ⟨by simp, by simp, by simp, ?_, by simp⟩
      intro message hm
      simp only [Outcome.error.injEq] at hm
      rcases herr e rfl with h' | h' <;> rw [h'] at hm <;> cases hm

/-- The turns of a run of the loop that returns: one per index from the entry
value down to `1`, each an accepted draw, and the result is the list with the
swaps of those draws applied. -/
theorem shuffleLoopTurns_ok {α : Type} (crypto : Crypto) :
    ∀ (i : Nat) (a out : List α) (s s' : Entropy) (turns : List Turn),
      shuffleLoopTurns crypto i a s = (.ok out, turns, s') →
        turns.map (fun t => t.i) = (List.range' 1 i).reverse ∧
          turns.map (fun t => t.bound) =
            (List.range' 2 i).reverse.map (fun b => JsValue.integer (b : Nat)) ∧
          ∃ js, turns.map (fun t => t.result) = js.map Outcome.ok ∧
            validDraws i js = true ∧ out = applyDraws i a js
  | 0, a, out, s, s', turns, h => by
    simp only [shuffleLoopTurns, Prod.mk.injEq, Outcome.ok.injEq] at h
    obtain ⟨h1, h2, -⟩ := h
    subst h1 h2
    exact ⟨rfl, rfl, [], rfl, rfl, rfl⟩
  | i + 1, a, out, s, s', turns, h => by
    rw [shuffleLoopTurns] at h
    have hlt := randomInt_ok_lt crypto ((i + 1 : Nat) + 1) (by omega) s
    generalize randomInt crypto (.integer ((i + 1 : Nat) + 1)) s = r at h hlt
    rcases r with ⟨j | e, t⟩
    · have hj := hlt j t rfl
      generalize hrec : shuffleLoopTurns crypto i (swap a (i + 1) j) t = rec at h
      rcases rec with ⟨r', turns', t'⟩
      simp only [Prod.mk.injEq] at h
      obtain ⟨h1, h2, h3⟩ := h
      rw [hrec] at h1 h2 h3
      simp only at h1 h2 h3
      subst h1 h2 h3
      obtain ⟨hi, hb, js, hjs, hv, hout⟩ :=
        shuffleLoopTurns_ok crypto i _ out t t' turns' hrec
      refine ⟨?_, ?_, j :: js, ?_, ?_, ?_⟩
      · simp only [List.map_cons, hi, List.range'_concat, List.reverse_append,
          List.reverse_cons, List.reverse_nil, List.nil_append, List.singleton_append,
          Nat.one_mul]
        rw [Nat.add_comm]
      · simp only [List.map_cons, hb, List.range'_concat, List.reverse_append,
          List.reverse_cons, List.reverse_nil, List.nil_append, List.singleton_append,
          List.cons.injEq, JsValue.integer.injEq, and_true]
        push_cast
        omega
      · simp only [List.map_cons, hjs]
      · simp only [validDraws, Bool.and_eq_true, decide_eq_true_eq]
        exact ⟨by omega, hv⟩
      · simp only [applyDraws]
        exact hout
    · simp at h

/-- Claim C13. For the empty list and for a single-element list `shuffleArray`
returns a list equal to its input; its loop makes no turn (no call of
`randomInt`, no swap) and the secure source is left as it was. -/
theorem shuffleArray_short {α : Type} (crypto : Crypto) (x : α) (s : Entropy) :
    shuffleArray crypto ([] : List α) s = (.ok [], s) ∧
      shuffleArray crypto [x] s = (.ok [x], s) ∧
      shuffleArrayTurns crypto ([] : List α) s = (.ok [], [], s) ∧
      shuffleArrayTurns crypto [x] s = (.ok [x], [], s) :=
  ⟨rfl, rfl, rfl, rfl⟩

/-- Claim C16. `shuffleArray` is the descending Fisher-Yates shuffle. Recording
the turns changes nothing; a run on a list of length `n` that returns has made
exactly `max(n - 1, 0)` calls of `randomInt`, at the indices `n-1, ..., 1`
with the bounds `n, ..., 2`, each returning a draw `j_i ≤ i`, and its result is
the list after the swaps of positions `(i, j_i)` in this order; a run that
does not return failed in the platform. -/
theorem shuffleArray_fisher_yates {α : Type} (crypto : Crypto) (L : List α) (s : Entropy) :
    ((shuffleArrayTurns crypto L s).1, (shuffleArrayTurns crypto L s).2.2) =
        shuffleArray crypto L s ∧
      (∀ out turns s', shuffleArrayTurns crypto L s = (.ok out, turns, s') →
        turns.length = L.length - 1 ∧
          turns.map (fun t => t.i) = (List.range' 1 (L.length - 1)).reverse ∧
          turns.map (fun t => t.bound) =
            (List.range' 2 (L.length - 1)).reverse.map (fun b => JsValue.integer (b : Nat)) ∧
          ∃ js, turns.map (fun t => t.result) = js.map Outcome.ok ∧
            validDraws (L.length - 1) js = true ∧
            out = applyDraws (L.length - 1) L js) ∧
      (∀ e, (shuffleArrayTurns crypto L s).1 = .error e →
        e = .entropyUnavailable ∨ e = .platform) := by
  have herase := shuffleLoopTurns_erase crypto (L.length - 1) L s
  refine ⟨herase, ?_, ?_⟩
  · intro out turns s' h
    obtain ⟨hi, hb, hjs⟩ := shuffleLoopTurns_ok crypto (L.length - 1) L out s s' turns h
    refine ⟨?_, hi, hb, hjs⟩
    have := congrArg List.length hi
    simpa using this
  · intro e he
    apply shuffleArray_error crypto L s e
    rw [← he]
    exact (congrArg Prod.fst herase).symm

theorem shuffleArray_fisher_yates_witness :
    shuffleArrayTurns legacyCrypto [10, 20, 30] [0, 0, 0, 1, 0, 0, 0, 0] =
        (.ok [30, 10, 20],
          [⟨2, .integer 3, .ok 1⟩, ⟨1, .integer 2, .ok 0⟩], []) ∧
      ([⟨2, .integer 3, .ok 1⟩, ⟨1, .integer 2, .ok 0⟩] : List Turn).length =
        [10, 20, 30].length - 1 :=
  ⟨by decide,
    ((shuffleArray_fisher_yates legacyCrypto [10, 20, 30] [0, 0, 0, 1, 0, 0, 0, 0]).2.1
      [30, 10, 20] [⟨2, .integer 3, .ok 1⟩, ⟨1, .integer 2, .ok 0⟩] [] (by decide)).1⟩

/-- Claim C19. `shuffleArray` raises no error of its own: in every run, on a
list of length `n`, each bound passed to `randomInt` is the integer `i + 1`
with `2 ≤ i + 1 ≤ n`, no call fails on its argument, and each draw `j` that
comes back satisfies `j ≤ i < n`, so both swap positions are inside the copy;
hence `shuffleArray` never throws an invalid-argument error. -/
theorem shuffleArray_no_own_error {α : Type} (crypto : Crypto) (L : List α) (s : Entropy) :
    (∀ t ∈ (shuffleArrayTurns crypto L s).2.1,
        t.bound = .integer ((t.i + 1 : Nat)) ∧ 2 ≤ t.i + 1 ∧ t.i + 1 ≤ L.length ∧
          (∀ message, t.result ≠ .error (.invalidArgument message)) ∧
          ∀ j, t.result = .ok j → j ≤ t.i ∧ t.i < L.length ∧ j < L.length) ∧
      (∀ message, (shuffleArray crypto L s).1 ≠ .error (.invalidArgument message)) := by
  constructor
  · intro t ht
    obtain ⟨h1, h2, h3, h4, h5⟩ := shuffleLoopTurns_safe crypto (L.length - 1) L s t ht
    have hpos : 0 < L.length := by omega
    refine ⟨h3, by omega, by omega, h4, ?_⟩
    intro j hj
    have := h5 j hj
    exact ⟨this, by omega, by omega⟩
  · intro message h
    rcases shuffleArray_error crypto L s _ h with h' | h' <;> cases h'

theorem shuffleArray_no_own_error_witness :
    ∀ t ∈ (shuffleArrayTurns legacyCrypto [10, 20, 30] [0, 0, 0, 1, 0, 0]).2.1,
      t.bound = .integer ((t.i + 1 : Nat)) ∧ 2 ≤ t.i + 1 ∧ t.i + 1 ≤ [10, 20, 30].length ∧
        (∀ message, t.result ≠ .error (.invalidArgument message)) ∧
        ∀ j, t.result = .ok j → j ≤ t.i ∧ t.i < [10, 20, 30].length ∧ j < [10, 20, 30].length :=
  (shuffleArray_no_own_error legacyCrypto [10, 20, 30] [0, 0, 0, 1, 0, 0]).1

/-! ## The caller's list -/

theorem Heap.read_eq {α : Type} (h : Heap α) (ref : Nat) : h.read ref = (h[ref]?).getD [] := by
  simp [Heap.read, List.getD_eq_getElem?_getD]

theorem set_getElem_same {β : Type} (l : List β) (a : Nat) (ha : a < l.length) :
    l.set a l[a] = l := by
  apply List.ext_getElem?
  intro n
  rw [List.getElem?_set]
  by_cases hn : a = n
  · subst hn
    simp [ha]
  · simp [hn]

/-- The loop writes to the object `a` and to no other. -/
theorem shuffleLoopAt_frame {α : Type} (crypto : Crypto) :
    ∀ (i : Nat) (h : Heap α) (a : Nat) (s : Entropy) (r : Nat), r ≠ a →
      (shuffleLoopAt crypto i h a s).2.1[r]? = h[r]?
  | 0, h, a, s, r, _ => rfl
  | i + 1, h, a, s, r, hr => by
    rw [shuffleLoopAt]
    generalize randomInt crypto (.integer ((i + 1 : Nat) + 1)) s = res
    rcases res with ⟨j | e, t⟩
    · simp only
      rw [shuffleLoopAt_frame crypto i _ a t r hr, List.getElem?_set_ne (Ne.symm hr)]
    · rfl

/-- On the object `a` the loop does what `shuffleLoop` does on its elements. -/
theorem shuffleLoopAt_ok {α : Type} (crypto : Crypto) :
    ∀ (i : Nat) (h : Heap α) (a : Nat) (s : Entropy) (out : List α) (s' : Entropy),
      a < h.length → shuffleLoop crypto i (h.read a) s = (.ok out, s') →
        shuffleLoopAt crypto i h a s = (.ok (), h.set a out, s')
  | 0, h, a, s, out, s', ha, hrun => by
    simp only [shuffleLoop, Prod.mk.injEq, Outcome.ok.injEq] at hrun
    obtain ⟨h1, h2⟩ := hrun
    subst h1 h2
    have : h.set a (h.read a) = h := by
      rw [Heap.read_eq, List.getElem?_eq_getElem ha]
      exact set_getElem_same h a ha
    rw [shuffleLoopAt, this]
  | i + 1, h, a, s, out, s', ha, hrun => by
    rw [shuffleLoop] at hrun
    rw [shuffleLoopAt]
    generalize randomInt crypto (.integer ((i + 1 : Nat) + 1)) s = res at hrun
    rcases res with ⟨j | e, t⟩
    · simp only at hrun ⊢
      have hread : Heap.read (h.set a (swap (h.read a) (i + 1) j)) a =
          swap (h.read a) (i + 1) j := by
        rw [Heap.read_eq, List.getElem?_set_self ha]
        rfl
      have ih := shuffleLoopAt_ok crypto i (h.set a (swap (h.read a) (i + 1) j)) a t out s'
        (by rw [List.length_set]; exact ha) (by rw [hread]; exact hrun)
      rw [ih, List.set_set]
    · simp at hrun

/-- The call `shuffleArray(arr)` leaves every array that existed as it was. -/
theorem shuffleArrayAt_frame {α : Type} (crypto : Crypto) (h : Heap α) (arr : Nat)
    (s : Entropy) (r : Nat) (hr : r < h.length) :
    (shuffleArrayAt crypto h arr s).2.1[r]? = h[r]? := by
  have hframe := shuffleLoopAt_frame crypto ((h.read arr).length - 1) (h ++ [h.read arr])
    h.length s r (by omega)
  rw [List.getElem?_append_left hr] at hframe
  have hlen : ((h ++ [h.read arr]).read h.length) = h.read arr := by
    rw [Heap.read_eq (h ++ [h.read arr])]
    simp
  simp only [shuffleArrayAt, Heap.alloc, hlen]
  generalize shuffleLoopAt crypto ((h.read arr).length - 1) (h ++ [h.read arr]) h.length s = res
    at hframe
  rcases res with ⟨_ | _, h2, t⟩ <;> exact hframe

/-- The array that `shuffleArray(arr)` returns holds what `shuffleArray`
computes from the elements of `arr`. -/
theorem shuffleArrayAt_ok {α : Type} (crypto : Crypto) (h : Heap α) (arr : Nat) (s : Entropy)
    (out : List α) (s' : Entropy) (hrun : shuffleArray crypto (h.read arr) s = (.ok out, s')) :
    shuffleArrayAt crypto h arr s = (.ok h.length, h ++ [out], s') := by
  have hlen : ((h ++ [h.read arr]).read h.length) = h.read arr := by
    rw [Heap.read_eq (h ++ [h.read arr])]
    simp
  have hloop := shuffleLoopAt_ok crypto ((h.read arr).length - 1) (h ++ [h.read arr]) h.length
    s out s' (by simp) (by rw [hlen]; exact hrun)
  simp only [shuffleArrayAt, Heap.alloc, hlen, hloop]
  simp

theorem shuffleArrayAt_ref {α : Type} (crypto : Crypto) (h : Heap α) (arr : Nat)
    (s : Entropy) (a : Nat) (h' : Heap α) (s' : Entropy)
    (hrun : shuffleArrayAt crypto h arr s = (.ok a, h', s')) :
    a = h.length := by
  simp only [shuffleArrayAt, Heap.alloc] at hrun
  generalize shuffleLoopAt crypto (((h ++ [h.read arr]).read h.length).length - 1)
    (h ++ [h.read arr]) h.length s = res at hrun
  rcases res with ⟨_ | _, h2, t⟩
  · simp only [Prod.mk.injEq, Outcome.ok.injEq] at hrun
    exact hrun.1.symm
  · simp at hrun

/-- The call `pickWinners(arr, count)` leaves every array that existed as it was. -/
theorem pickWinnersAt_frame {α : Type} (crypto : Crypto) (h : Heap α) (arr : JsRef)
    (count : JsValue) (s : Entropy) (r : Nat) (hr : r < h.length) :
    (pickWinnersAt crypto h arr count s).2.1[r]? = h[r]? := by
  cases arr with
  | nonArray => rfl
  | array ref =>
    simp only [pickWinnersAt]
    split
    · rfl
    · split
      · rfl
      · have hframe := shuffleArrayAt_frame crypto h ref s r hr
        generalize shuffleArrayAt crypto h ref s = res at hframe
        rcases res with ⟨a | e, h1, t⟩
        · simp only [Heap.alloc] at hframe ⊢
          have hr1 : r < h1.length := by
            by_contra hcon
            rw [List.getElem?_eq_none (by omega), List.getElem?_eq_getElem hr] at hframe
            cases hframe
          rw [List.getElem?_append_left hr1]
          exact hframe
        · exact hframe

/-- The array that `pickWinners(arr, count)` returns holds what `pickWinners`
computes from the elements of `arr`. -/
theorem pickWinnersAt_ok {α : Type} (crypto : Crypto) (h : Heap α) (arr : Nat)
    (count : JsValue) (s : Entropy) (winners : List α) (s' : Entropy)
    (hrun : pickWinners crypto (.array (h.read arr)) count s = (.ok winners, s')) :
    ∃ out, pickWinnersAt crypto h (.array arr) count s =
      (.ok (h.length + 1), h ++ [out] ++ [winners], s') := by
  simp only [pickWinners] at hrun
  simp only [pickWinnersAt]
  split at hrun
  · simp at hrun
  · split at hrun
    · simp at hrun
    · rename_i hg1 hg2
      rw [if_neg hg1, if_neg hg2]
      generalize hsh : shuffleArray crypto (h.read arr) s = res at hrun
      rcases res with ⟨out | e, t⟩
      · simp only [Prod.mk.injEq, Outcome.ok.injEq] at hrun
        obtain ⟨hw, ht⟩ := hrun
        subst hw ht
        refine ⟨out, ?_⟩
        rw [shuffleArrayAt_ok crypto h arr s out t hsh]
        have hread : Heap.read (h ++ [out]) h.length = out := by
          rw [Heap.read_eq]
          simp
        simp only [Heap.alloc, hread, List.length_append, List.length_singleton]
      · simp at hrun

/-- Claim C12. Neither `shuffleArray(arr)` nor `pickWinners(arr, count)` alters
the caller's list: whatever the count and the draws, and whether the call
returns or fails, the array that `arr` refers to holds after the call exactly
the elements it held before. The arrays returned are new objects holding what
`shuffleArray` and `pickWinners` compute from the elements of `arr`. -/
theorem caller_list_unchanged {α : Type} (crypto : Crypto) (h : Heap α) (arr : Nat)
    (harr : arr < h.length) (count : JsValue) (s : Entropy) :
    Heap.read (shuffleArrayAt crypto h arr s).2.1 arr = h.read arr ∧
      Heap.read (pickWinnersAt crypto h (.array arr) count s).2.1 arr = h.read arr ∧
      (∀ out s', shuffleArray crypto (h.read arr) s = (.ok out, s') →
        ∃ a h', shuffleArrayAt crypto h arr s = (.ok a, h', s') ∧ a ≠ arr ∧
          Heap.read h' a = out) ∧
      (∀ winners s', pickWinners crypto (.array (h.read arr)) count s = (.ok winners, s') →
        ∃ a h', pickWinnersAt crypto h (.array arr) count s = (.ok a, h', s') ∧ a ≠ arr ∧
          Heap.read h' a = winners) := by
  refine ⟨?_, ?_, ?_, ?_⟩
  · rw [Heap.read_eq, Heap.read_eq, shuffleArrayAt_frame crypto h arr s arr harr]
  · rw [Heap.read_eq, Heap.read_eq, pickWinnersAt_frame crypto h (.array arr) count s arr harr]
  · intro out s' hrun
    refine ⟨h.length, h ++ [out], shuffleArrayAt_ok crypto h arr s out s' hrun, by omega, ?_⟩
    rw [Heap.read_eq]
    simp
  · intro winners s' hrun
    obtain ⟨out, hout⟩ := pickWinnersAt_ok crypto h arr count s winners s' hrun
    refine ⟨h.length + 1, h ++ [out] ++ [winners], hout, by omega, ?_⟩
    rw [Heap.read_eq, List.getElem?_append_right (by simp)]
    simp

theorem caller_list_unchanged_witness :
    Heap.read (shuffleArrayAt legacyCrypto [[7], [10, 20, 30]] 1
        [0, 0, 0, 1, 0, 0, 0, 0]).2.1 1 = [10, 20, 30] ∧
      shuffleArrayAt legacyCrypto [[7], [10, 20, 30]] 1 [0, 0, 0, 1, 0, 0, 0, 0] =
        (.ok 2, [[7], [10, 20, 30], [30, 10, 20]], []) :=
  ⟨(caller_list_unchanged legacyCrypto [[7], [10, 20, 30]] 1 (by decide) (.integer 2)
      [0, 0, 0, 1, 0, 0, 0, 0]).1, by decide⟩

/-! ## The list of lines of the command line -/

/-- Trimming leaves something exactly when there is a character that is not
whitespace. -/
theorem trimChars_ne_nil_iff (l : List Char) :
    trimChars l ≠ [] ↔ ∃ c ∈ l, isJsWhiteSpace c = false := by
  have hnil : trimChars l = [] ↔ ∀ c ∈ l, isJsWhiteSpace c = true := by
    unfold trimChars
    rw [List.reverse_eq_nil_iff, List.dropWhile_eq_nil_iff]
    constructor
    · intro hall
      by_contra hcon
      have hne : List.dropWhile isJsWhiteSpace l ≠ [] := by
        intro h
        exact hcon (List.dropWhile_eq_nil_iff.mp h)
      have hhead := List.head_dropWhile_not isJsWhiteSpace l hne
      have := hall _ (List.mem_reverse.mpr (List.head_mem hne))
      rw [hhead] at this
      cases this
    · intro hall c hc
      rw [List.dropWhile_eq_nil_iff.mpr hall] at hc
      simp at hc
  rw [Ne, hnil]
  push_neg
  simp

theorem jsTrim_length_pos_iff (l : String) :
    (jsTrim l).length > 0 ↔ ∃ c ∈ l.data, isJsWhiteSpace c = false := by
  rw [← trimChars_ne_nil_iff]
  show (trimChars l.data).length > 0 ↔ _
  rw [gt_iff_lt, List.length_pos]

/-- Claim C14, as stated, fails: a line with blanks around a word is kept as
it is, with its leading and trailing whitespace. -/
theorem readLines_keeps_whitespace :
    readLines " a \n" = [" a "] ∧ jsTrim " a " = "a" ∧
      ¬ (∀ l ∈ readLines " a \n", jsTrim l = l) := by
  decide

/-- Claim C14, amended. For every file content the list of lines that the
`shuffle` and `winners` commands build is exactly the split of the content
with the lines that have no character other than whitespace left out: in file
order, every other line kept, as often as it occurs and as it stands in the
file (not trimmed); so every line in it is non-empty and non-blank. -/
theorem readLines_nonblank (contents : String) :
    readLines contents =
        (splitLines contents).filter (fun l => l.data.any (fun c => !isJsWhiteSpace c)) ∧
      (readLines contents).Sublist (splitLines contents) ∧
      (∀ l ∈ splitLines contents,
        l ∈ readLines contents ↔ ∃ c ∈ l.data, isJsWhiteSpace c = false) ∧
      (∀ l ∈ readLines contents, l ≠ "" ∧ jsTrim l ≠ "") := by
  refine ⟨?_, List.filter_sublist _, ?_, ?_⟩
  · unfold readLines
    apply List.filter_congr
    intro l _
    rw [Bool.eq_iff_iff, decide_eq_true_eq, jsTrim_length_pos_iff, List.any_eq_true]
    simp
  · intro l hl
    simp only [readLines, List.mem_filter, hl, true_and, decide_eq_true_eq]
    exact jsTrim_length_pos_iff l
  · intro l hl
    simp only [readLines, List.mem_filter, decide_eq_true_eq] at hl
    have hpos := hl.2
    constructor
    · intro h
      subst h
      revert hpos
      decide
    · intro h
      rw [h] at hpos
      revert hpos
      decide

theorem readLines_nonblank_witness :
    readLines "alice\r\n\r\n  \nbob \nalice\n\tcarol" =
        (splitLines "alice\r\n\r\n  \nbob \nalice\n\tcarol").filter
          (fun l => l.data.any (fun c => !isJsWhiteSpace c)) ∧
      readLines "alice\r\n\r\n  \nbob \nalice\n\tcarol" =
        ["alice", "bob ", "alice", "\tcarol"] :=
  ⟨(readLines_nonblank "alice\r\n\r\n  \nbob \nalice\n\tcarol").1, by decide⟩

/-! ## The `winners` command -/

/-- Claim C15, as stated, fails on the message: for the file of five lines and
the count 10 the run ends with exit code 1, nothing on standard output and the
secure source untouched, but the message on the error stream is
`count cannot be greater than number of lines`, which does not contain
`count cannot exceed`. -/
theorem winners_message_is_not_cannot_exceed :
    (readLines "a\nb\nc\nd\ne\n").length = 5 ∧
      main sampleSys legacyCrypto ["winners", "list.txt", "10"] [0, 0, 0, 1] =
        (⟨[], ["count cannot be greater than number of lines"], .code 1⟩, [0, 0, 0, 1]) ∧
      ¬ ∃ m ∈ (main sampleSys legacyCrypto ["winners", "list.txt", "10"] [0, 0, 0, 1]).1.stderr,
        "count cannot exceed".data <:+: m.data := by
  decide

/-- Claim C15, amended. For an existing file with `m ≥ 1` usable lines and an
integer `count > m`, the `winners` command logs exactly the message
`count cannot be greater than number of lines` on the error stream and exits
with code 1; nothing is printed on standard output and nothing is drawn from
the secure source. The guard is the command's own: `pickWinners` is not
reached (its error would end the run as an uncaught exception). -/
theorem winners_count_too_large (sys : Sys) (crypto : Crypto) (file countArg contents : String)
    (count : Int) (s : Entropy) (hfile : file ≠ "")
    (hparse : sys.parseInt (some countArg) = .integer count)
    (hexists : sys.files (sys.resolve file) = some (.file contents))
    (hm : 1 ≤ (readLines contents).length)
    (hcount : ((readLines contents).length : Int) < count) :
    main sys crypto ["winners", file, countArg] s =
      (⟨[], ["count cannot be greater than number of lines"], .code 1⟩, s) := by
  have hpos : ¬ count ≤ 0 := by omega
  have hlen : ¬ (readLines contents).length = 0 := by omega
  simp [main, isFalsy, hfile, hparse, hexists, JsValue.isInteger, JsValue.toInt, hpos, hlen,
    hcount]

theorem winners_count_too_large_witness :
    main sampleSys legacyCrypto ["winners", "list.txt", "10"] [0, 0, 0, 1] =
      (⟨[], ["count cannot be greater than number of lines"], .code 1⟩, [0, 0, 0, 1]) :=
  winners_count_too_large sampleSys legacyCrypto "list.txt" "10" "a\nb\nc\nd\ne\n" 10
    [0, 0, 0, 1] (by decide) (by decide) (by decide) (by decide) (by decide)

/-! ## Counting draw sequences -/

/-- A list of `n` distinct elements has `n!` permutations. -/
theorem ncard_perms {α : Type} (l : List α) (hnd : l.Nodup) :
    Set.ncard {p : List α | p.Perm l} = l.length.factorial := by
  classical
  have hset : {p : List α | p.Perm l} = ↑(l.permutations.toFinset) := by
    rw [List.coe_toFinset]
    ext p
    simp [List.mem_permutations]
  rw [hset, Set.ncard_coe_Finset, List.toFinset_card_of_nodup (List.nodup_permutations l hnd),
    List.length_permutations]

/-- The shuffles of a non-empty list over the valid draw sequences are its
permutations. -/
theorem applyDraws_image {α : Type} (i : Nat) (a : List α) (ha : a.length = i + 1) :
    applyDraws i a '' {js | validDraws i js = true} = {p | p.Perm a} := by
  ext p
  constructor
  · rintro ⟨js, -, rfl⟩
    exact applyDraws_perm i a js
  · intro hp
    obtain ⟨js, hv, hjs⟩ := applyDraws_surjective i a p ha hp
    exact ⟨js, hv, hjs⟩

theorem applyDraws_injOn {α : Type} (i : Nat) (a : List α) (ha : a.length = i + 1)
    (hnd : a.Nodup) (S : Set (List Nat)) (hS : ∀ js ∈ S, validDraws i js = true) :
    Set.InjOn (applyDraws i a) S :=
  fun js hjs js' hjs' h => applyDraws_injective i a js js' ha hnd (hS js hjs) (hS js' hjs') h

/-- The permutations of `a` that begin with `w` are `w` followed by a
permutation of the rest. -/
theorem perms_with_prefix {α : Type} (a w rest : List α) (hperm : (w ++ rest).Perm a) :
    {p : List α | p.Perm a ∧ p.take w.length = w} =
      (fun q => w ++ q) '' {q | q.Perm rest} := by
  ext p
  constructor
  · rintro ⟨hp, htake⟩
    refine ⟨p.drop w.length, ?_, ?_⟩
    · have hsplit : p = w ++ p.drop w.length := by
        conv_lhs => rw [← List.take_append_drop w.length p, htake]
      have : (w ++ p.drop w.length).Perm (w ++ rest) := by
        rw [← hsplit]
        exact hp.trans hperm.symm
      exact (List.perm_append_left_iff w).mp this
    · show w ++ p.drop w.length = p
      conv_rhs => rw [← List.take_append_drop w.length p, htake]
  · rintro ⟨q, hq, rfl⟩
    exact ⟨((List.perm_append_left_iff w).mpr hq).trans hperm, List.take_left w q⟩

/-- On scripted valid draws `pickWinners` returns the first `k` elements of
the list with the swaps applied. -/
theorem pickWinners_encodeDraws {α : Type} (arr : List α) (k : Nat) (h1 : 1 ≤ k)
    (h2 : k ≤ arr.length) (hlen : arr.length < 2 ^ 32) (js : List Nat)
    (hv : validDraws (arr.length - 1) js = true) :
    pickWinners legacyCrypto (.array arr) (.integer k) (encodeDraws js) =
      (.ok ((applyDraws (arr.length - 1) arr js).take k), []) := by
  rw [pickWinners_pos legacyCrypto arr k (by omega) (by omega),
    shuffleArray_encodeDraws arr js hlen hv]
  simp

/-! ## Scripted draws on either branch of `randomInt` -/

theorem scripted_legacyCrypto : Scripted legacyCrypto :=
  fun n j rest hj hn => randomInt_encodeU32 n j hj hn rest

theorem scripted_modernCrypto : Scripted modernCrypto := by
  intro n j rest hj hn
  rw [randomInt_native modernCrypto _ rfl n (by omega)]
  have hd : encodeU32 j ++ rest =
      Fin.ofNat (j / 2 ^ 24) :: Fin.ofNat (j / 2 ^ 16) :: Fin.ofNat (j / 2 ^ 8) ::
        Fin.ofNat j :: rest := rfl
  have hread : readUInt32BE [Fin.ofNat (j / 2 ^ 24), Fin.ofNat (j / 2 ^ 16),
      Fin.ofNat (j / 2 ^ 8), Fin.ofNat j] 0 = j := readUInt32BE_encodeU32 j (by omega)
  have hpos : 0 < n := by omega
  rw [hd]
  simp only [hread, Int.toNat_ofNat, Nat.mod_eq_of_lt hj]
  rw [dif_pos hpos]

/-- On a scripted runtime the loop fed valid draws returns the list with the
swaps applied, having consumed exactly the script. -/
theorem shuffleLoop_scripted {α : Type} (crypto : Crypto) (hc : Scripted crypto) :
    ∀ (i : Nat) (a : List α) (js : List Nat) (rest : Entropy),
      validDraws i js = true → i + 1 ≤ 2 ^ 32 - 1 →
        shuffleLoop crypto i a (encodeDraws js ++ rest) = (.ok (applyDraws i a js), rest)
  | 0, a, js, rest, hv, _ => by
    cases js with
    | nil => simp [shuffleLoop, encodeDraws, applyDraws]
    | cons j js => simp [validDraws] at hv
  | i + 1, a, [], rest, hv, _ => by simp [validDraws] at hv
  | i + 1, a, j :: js, rest, hv, hi => by
    simp only [validDraws, Bool.and_eq_true, decide_eq_true_eq] at hv
    rw [shuffleLoop, encodeDraws, List.append_assoc]
    have hdraw := hc (i + 1 + 1) j (encodeDraws js ++ rest) (by omega) hi
    simp only [Nat.cast_add, Nat.cast_one] at hdraw ⊢
    rw [hdraw]
    simp only [applyDraws]
    exact shuffleLoop_scripted crypto hc i _ js rest hv.2 (by omega)

theorem shuffleArray_scripted {α : Type} (crypto : Crypto) (hc : Scripted crypto)
    (L : List α) (js : List Nat) (hlen : L.length < 2 ^ 32)
    (hv : validDraws (L.length - 1) js = true) :
    shuffleArray crypto L (encodeDraws js) = (.ok (applyDraws (L.length - 1) L js), []) := by
  have h := shuffleLoop_scripted crypto hc (L.length - 1) L js [] hv (by omega)
  rw [List.append_nil] at h
  exact h

theorem pickWinners_scripted {α : Type} (crypto : Crypto) (hc : Scripted crypto)
    (arr : List α) (k : Nat) (h1 : 1 ≤ k) (h2 : k ≤ arr.length) (hlen : arr.length < 2 ^ 32)
    (js : List Nat) (hv : validDraws (arr.length - 1) js = true) :
    pickWinners crypto (.array arr) (.integer k) (encodeDraws js) =
      (.ok ((applyDraws (arr.length - 1) arr js).take k), []) := by
  rw [pickWinners_pos crypto arr k (by omega) (by omega),
    shuffleArray_scripted crypto hc arr js hlen hv]
  simp

/-! ## The shuffle as a map of the draws returned -/

/-- A run of `shuffleArray` that returns, on any runtime, returns the list
with the swaps of the draws that `randomInt` gave back, and those draws are a
valid draw sequence. -/
theorem shuffleArray_ok_draws {α : Type} (crypto : Crypto) (L : List α) (s : Entropy)
    (out : List α) (s' : Entropy) (h : shuffleArray crypto L s = (.ok out, s')) :
    ∃ turns js, shuffleArrayTurns crypto L s = (.ok out, turns, s') ∧
      turns.map (fun t => t.result) = js.map Outcome.ok ∧
      validDraws (L.length - 1) js = true ∧ out = applyDraws (L.length - 1) L js := by
  have herase := shuffleLoopTurns_erase crypto (L.length - 1) L s
  have hrun : shuffleLoopTurns crypto (L.length - 1) L s =
      (.ok out, (shuffleLoopTurns crypto (L.length - 1) L s).2.1, s') := by
    have h' : shuffleLoop crypto (L.length - 1) L s = (.ok out, s') := h
    rw [h'] at herase
    simp only [Prod.mk.injEq] at herase
    rw [← herase.1, ← herase.2]
  obtain ⟨-, -, js, hjs, hv, hout⟩ :=
    shuffleLoopTurns_ok crypto (L.length - 1) L out s s' _ hrun
  exact ⟨_, js, hrun, hjs, hv, hout⟩

/-- Two valid draw sequences that shuffle a list of distinct elements to the
same list are equal. -/
theorem applyDraws_unique {α : Type} (L : List α) (hnd : L.Nodup) (js js' : List Nat)
    (hv : validDraws (L.length - 1) js = true) (hv' : validDraws (L.length - 1) js' = true)
    (h : applyDraws (L.length - 1) L js = applyDraws (L.length - 1) L js') : js = js' := by
  cases L with
  | nil =>
    simp only [List.length_nil, Nat.zero_sub, validDraws_zero] at hv hv'
    rw [hv, hv']
  | cons x xs => exact applyDraws_injective _ (x :: xs) js js' (by simp) hnd hv hv' h

/-- Every permutation of a list is its shuffle by some valid draw sequence. -/
theorem applyDraws_exists {α : Type} (L P : List α) (hP : P.Perm L) :
    ∃ js, validDraws (L.length - 1) js = true ∧ applyDraws (L.length - 1) L js = P := by
  cases L with
  | nil =>
    refine ⟨[], rfl, ?_⟩
    simpa [applyDraws] using (List.perm_nil.mp hP).symm
  | cons x xs => exact applyDraws_surjective _ (x :: xs) P (by simp) hP

/-- On a scripted runtime the draws that a run on scripted valid draws records
are the script. -/
theorem shuffleArrayTurns_scripted {α : Type} (crypto : Crypto) (hc : Scripted crypto)
    (L : List α) (hnd : L.Nodup) (hlen : L.length < 2 ^ 32) (js : List Nat)
    (hv : validDraws (L.length - 1) js = true) :
    ∃ turns, shuffleArrayTurns crypto L (encodeDraws js) =
        (.ok (applyDraws (L.length - 1) L js), turns, []) ∧
      turns.map (fun t => t.result) = js.map Outcome.ok := by
  obtain ⟨turns, js', hrun, hjs', hv', hout⟩ := shuffleArray_ok_draws crypto L
    (encodeDraws js) _ [] (shuffleArray_scripted crypto hc L js hlen hv)
  have := applyDraws_unique L hnd js js' hv hv' hout
  subst this
  exact ⟨turns, hrun, hjs'⟩

/-- Claim C4. For a list `L` of `n` pairwise distinct elements, on every
runtime (with or without `crypto.randomInt`) a run of `shuffleArray(L)` that
returns, returns `applyDraws L js` for the valid draw sequence
`js = (j_{n-1}, ..., j_1)`, `0 ≤ j_i ≤ i`, that `randomInt` gave back; the map
`js ↦ applyDraws L js` sends valid draw sequences to permutations of `L` and
every permutation of `L` is the image of exactly one valid draw sequence. On
a runtime that returns scripted words as draws (both sample runtimes do, one
on each branch of `randomInt`), every valid draw sequence is the draws of a
run, and every permutation of `L` is returned for exactly one of them. -/
theorem shuffleArray_bijection {α : Type} (L : List α) (hnd : L.Nodup) :
    (∀ crypto s out s', shuffleArray crypto L s = (.ok out, s') →
        ∃ turns js, shuffleArrayTurns crypto L s = (.ok out, turns, s') ∧
          turns.map (fun t => t.result) = js.map Outcome.ok ∧
          validDraws (L.length - 1) js = true ∧ out = applyDraws (L.length - 1) L js) ∧
      (∀ js, validDraws (L.length - 1) js = true → (applyDraws (L.length - 1) L js).Perm L) ∧
      (∀ P, P.Perm L →
        ∃! js, validDraws (L.length - 1) js = true ∧ applyDraws (L.length - 1) L js = P) ∧
      (L.length < 2 ^ 32 → ∀ crypto, Scripted crypto →
        (∀ js, validDraws (L.length - 1) js = true →
          shuffleArray crypto L (encodeDraws js) =
              (.ok (applyDraws (L.length - 1) L js), []) ∧
            ∃ turns, shuffleArrayTurns crypto L (encodeDraws js) =
                (.ok (applyDraws (L.length - 1) L js), turns, []) ∧
              turns.map (fun t => t.result) = js.map Outcome.ok) ∧
        (∀ P, P.Perm L →
          ∃! js, validDraws (L.length - 1) js = true ∧
            shuffleArray crypto L (encodeDraws js) = (.ok P, []))) ∧
      Scripted legacyCrypto ∧ Scripted modernCrypto := by
  have hbij : ∀ P, P.Perm L →
      ∃! js, validDraws (L.length - 1) js = true ∧ applyDraws (L.length - 1) L js = P := by
    intro P hP
    obtain ⟨js, hv, hjs⟩ := applyDraws_exists L P hP
    refine ⟨js, ⟨hv, hjs⟩, ?_⟩
    rintro js' ⟨hv', hjs'⟩
    exact applyDraws_unique L hnd js' js hv' hv (by rw [hjs', hjs])
  refine ⟨fun crypto s out s' h => shuffleArray_ok_draws crypto L s out s' h,
    fun js _ => applyDraws_perm _ L js, hbij, ?_, scripted_legacyCrypto, scripted_modernCrypto⟩
  intro hlen crypto hc
  constructor
  · intro js hv
    exact ⟨shuffleArray_scripted crypto hc L js hlen hv,
      shuffleArrayTurns_scripted crypto hc L hnd hlen js hv⟩
  · intro P hP
    obtain ⟨js, ⟨hv, hjs⟩, huniq⟩ := hbij P hP
    refine ⟨js, ⟨hv, by rw [shuffleArray_scripted crypto hc L js hlen hv, hjs]⟩, ?_⟩
    rintro js' ⟨hv', hrun'⟩
    rw [shuffleArray_scripted crypto hc L js' hlen hv'] at hrun'
    simp only [Prod.mk.injEq, Outcome.ok.injEq, and_true] at hrun'
    exact huniq js' ⟨hv', hrun'⟩

theorem shuffleArray_bijection_witness :
    (∃! js, validDraws 2 js = true ∧
        shuffleArray modernCrypto [10, 20, 30] (encodeDraws js) = (.ok [30, 10, 20], [])) ∧
      (∃! js, validDraws 2 js = true ∧
        shuffleArray legacyCrypto [10, 20, 30] (encodeDraws js) = (.ok [30, 10, 20], [])) ∧
      shuffleArray modernCrypto [10, 20, 30] (encodeDraws [1, 0]) = (.ok [30, 10, 20], []) :=
  have h := (shuffleArray_bijection [10, 20, 30] (by decide)).2.2.2.1 (by decide)
  ⟨(h modernCrypto scripted_modernCrypto).2 [30, 10, 20] (by decide),
    (h legacyCrypto scripted_legacyCrypto).2 [30, 10, 20] (by decide), by decide⟩

/-- Claim C11. `pickWinners` is uniform over ordered selections. For a list
`arr` of `n` pairwise distinct elements and `1 ≤ k ≤ n`: on every runtime
(with or without `crypto.randomInt`) a run of `pickWinners(arr, k)` that
returns, returns the first `k` elements of `applyDraws arr js` for the valid
draw sequence `js` that `randomInt` gave back; there are `n!` valid draw
sequences; and each sequence `w` of `k` distinct elements of `arr` is that
result for exactly `(n - k)!` of them. On a runtime that returns scripted
words as draws (both sample runtimes do, one on each branch of `randomInt`),
`w` is what `pickWinners(arr, k)` returns for exactly `(n - k)!` of the valid
draw sequences. -/
theorem pickWinners_uniform {α : Type} (arr : List α) (hnd : arr.Nodup) (k : Nat)
    (h1 : 1 ≤ k) (h2 : k ≤ arr.length) :
    (∀ crypto s winners s',
        pickWinners crypto (.array arr) (.integer k) s = (.ok winners, s') →
          ∃ out turns js, shuffleArrayTurns crypto arr s = (.ok out, turns, s') ∧
            turns.map (fun t => t.result) = js.map Outcome.ok ∧
            validDraws (arr.length - 1) js = true ∧
            winners = (applyDraws (arr.length - 1) arr js).take k) ∧
      Set.ncard {js : List Nat | validDraws (arr.length - 1) js = true} =
        arr.length.factorial ∧
      (∀ w : List α, w.Nodup → w.length = k → (∀ x ∈ w, x ∈ arr) →
        Set.ncard {js : List Nat | validDraws (arr.length - 1) js = true ∧
            (applyDraws (arr.length - 1) arr js).take k = w} = (arr.length - k).factorial ∧
          (arr.length < 2 ^ 32 → ∀ crypto, Scripted crypto →
            Set.ncard {js : List Nat | validDraws (arr.length - 1) js = true ∧
                pickWinners crypto (.array arr) (.integer k) (encodeDraws js) = (.ok w, [])} =
              (arr.length - k).factorial)) ∧
      Scripted legacyCrypto ∧ Scripted modernCrypto := by
  have ha : arr.length = (arr.length - 1) + 1 := by omega
  refine ⟨?_, ?_, ?_, scripted_legacyCrypto, scripted_modernCrypto⟩
  · intro crypto s winners s' hrun
    rw [pickWinners_pos crypto arr k (by omega) (by omega)] at hrun
    generalize hsh : shuffleArray crypto arr s = res at hrun
    rcases res with ⟨out | e, t⟩
    · simp only [Prod.mk.injEq, Outcome.ok.injEq, Int.toNat_ofNat] at hrun
      obtain ⟨hw, ht⟩ := hrun
      subst hw ht
      obtain ⟨turns, js, hturns, hjs, hv, hout⟩ := shuffleArray_ok_draws crypto arr s out t hsh
      exact ⟨out, turns, js, hturns, hjs, hv, by rw [hout]⟩
    · simp at hrun
  · have hcard := Set.ncard_image_of_injOn (applyDraws_injOn (arr.length - 1) arr ha hnd
      {js | validDraws (arr.length - 1) js = true} (fun js hjs => hjs))
    rw [← hcard, applyDraws_image (arr.length - 1) arr ha, ncard_perms arr hnd]
  · intro w hw hwk hsub
    obtain ⟨l, hlw, hsl⟩ := List.subperm_of_subset hw hsub
    obtain ⟨rest0, hrest0⟩ := hsl.exists_perm_append
    have hperm : (w ++ rest0).Perm arr :=
      (List.Perm.append_right rest0 hlw.symm).trans hrest0.symm
    have hrestnd : rest0.Nodup := (hperm.nodup_iff.mpr hnd).of_append_right
    have hrestlen : rest0.length = arr.length - k := by
      have := hperm.length_eq
      rw [List.length_append] at this
      omega
    have himage : applyDraws (arr.length - 1) arr ''
        {js | validDraws (arr.length - 1) js = true ∧
          (applyDraws (arr.length - 1) arr js).take k = w} =
        {p | p.Perm arr ∧ p.take w.length = w} := by
      ext p
      constructor
      · rintro ⟨js, ⟨-, htake⟩, rfl⟩
        exact ⟨applyDraws_perm _ arr js, by rw [hwk]; exact htake⟩
      · rintro ⟨hp, htake⟩
        obtain ⟨js, hv, hjs⟩ := applyDraws_surjective (arr.length - 1) arr p ha hp
        exact ⟨js, ⟨hv, by rw [hjs, ← hwk]; exact htake⟩, hjs⟩
    have hcard := Set.ncard_image_of_injOn (applyDraws_injOn (arr.length - 1) arr ha hnd
      {js | validDraws (arr.length - 1) js = true ∧
        (applyDraws (arr.length - 1) arr js).take k = w} (fun js hjs => hjs.1))
    have hcount : Set.ncard {js : List Nat | validDraws (arr.length - 1) js = true ∧
        (applyDraws (arr.length - 1) arr js).take k = w} = (arr.length - k).factorial := by
      rw [← hcard, himage, perms_with_prefix arr w rest0 hperm,
        Set.ncard_image_of_injective _ (List.append_right_injective w),
        ncard_perms rest0 hrestnd, hrestlen]
    refine ⟨hcount, ?_⟩
    intro hlen crypto hc
    have hset : {js : List Nat | validDraws (arr.length - 1) js = true ∧
        pickWinners crypto (.array arr) (.integer k) (encodeDraws js) = (.ok w, [])} =
        {js | validDraws (arr.length - 1) js = true ∧
          (applyDraws (arr.length - 1) arr js).take k = w} := by
      ext js
      simp only [Set.mem_setOf_eq]
      constructor
      · rintro ⟨hv, hrun⟩
        rw [pickWinners_scripted crypto hc arr k h1 h2 hlen js hv] at hrun
        simp only [Prod.mk.injEq, Outcome.ok.injEq, and_true] at hrun
        exact ⟨hv, hrun⟩
      · rintro ⟨hv, htake⟩
        exact ⟨hv, by rw [pickWinners_scripted crypto hc arr k h1 h2 hlen js hv, htake]⟩
    rw [hset, hcount]

theorem pickWinners_uniform_witness :
    Set.ncard {js : List Nat | validDraws 2 js = true} = Nat.factorial 3 ∧
      Set.ncard {js : List Nat | validDraws 2 js = true ∧
          pickWinners modernCrypto (.array [10, 20, 30]) (.integer (2 : Nat)) (encodeDraws js) =
            (.ok [30, 10], [])} = Nat.factorial (3 - 2) ∧
      Set.ncard {js : List Nat | validDraws 2 js = true ∧
          pickWinners legacyCrypto (.array [10, 20, 30]) (.integer (2 : Nat)) (encodeDraws js) =
            (.ok [30, 10], [])} = Nat.factorial (3 - 2) ∧
      pickWinners modernCrypto (.array [10, 20, 30]) (.integer (2 : Nat)) (encodeDraws [1, 0]) =
        (.ok [30, 10], []) :=
  have h := pickWinners_uniform [10, 20, 30] (by decide) 2 (by decide) (by decide)
  have hw := (h.2.2.1 [30, 10] (by decide) (by decide) (by decide)).2 (by decide)
  ⟨h.2.1, hw modernCrypto scripted_modernCrypto, hw legacyCrypto scripted_legacyCrypto,
    by decide⟩

end CryptoRandom
